import Mathlib

/-!
Verification of the chain-construction core of the `funcions_numerables_datathon`
repository (file `chip_class.py`).  The Python classes `Pin`, `Edge` and `Chip`
and the methods `_statistics`, `_add_edge`, `find_paths_fast_version`,
`_min_edge` and `find_paths_slow_version` are embedded shallowly below.

Modelling conventions:
* Python `int` becomes `ℤ` (coordinates, distances) or `ℕ` (indices);
  the float boundary values `y_0 + i*(ymax-y_0)/32` become exact rationals `ℚ`.
* Code that can raise `IndexError` / `ZeroDivisionError` returns `Option`;
  `none` models the crash.
* `list.remove`/`list.sort` become `List.erase` (first occurrence) and the
  stable `List.insertionSort` (Python's sort is stable, and any two stable
  sorts by the same key agree); Python object identity coincides with
  structural equality on the runs considered here (pins are compared as
  whole records).
* `_statistics` applies `np.sqrt` to `sum(deviations)/(len-1)`; since the
  square root is irrational in general, the embedding returns the radicand
  (the sample variance, i.e. the square of the returned standard deviation)
  together with the mean.
-/

namespace Datathon

set_option maxRecDepth 40000

/-- Python class `Pin` (chip_class.py lines 5-13): a named integer point. -/
structure Pin where
  name : String
  x : ℤ
  y : ℤ
deriving DecidableEq

/-- Manhattan distance as computed in `Edge.__init__` (line 21):
`abs(conn_in.x - conn_out.x) + abs(conn_in.y - conn_out.y)`. -/
def manhattan (a b : Pin) : ℤ :=
  ((a.x - b.x).natAbs : ℤ) + ((a.y - b.y).natAbs : ℤ)

/-- Python class `Edge` (lines 16-22).  The field `dist` of the Python object
is always `abs(conn_in.x-conn_out.x)+abs(conn_in.y-conn_out.y)` and is never
mutated, so it is modelled as the derived function `Edge.dist` below.  The
constructor default `i = 0` is made explicit at each construction site. -/
structure Edge where
  conn_in : Pin
  conn_out : Pin
  i : ℕ
deriving DecidableEq

/-- Distance stored in a Python `Edge` at construction (line 21). -/
def Edge.dist (e : Edge) : ℤ :=
  manhattan e.conn_in e.conn_out

/-- Helper `obx` (lines 28-30): the x-coordinate, used as a sort key. -/
def obx (p : Pin) : ℤ :=
  p.x

/-- Helper `oby` (lines 32-34): the y-coordinate, used as a sort key. -/
def oby (p : Pin) : ℤ :=
  p.y

/-- Python `list.sort(key=oby)`: stable ascending sort by y-coordinate
(Python's sort is stable; any stable sort by the same key produces the same
list, and `List.insertionSort` with a non-strict key order is stable). -/
def sortByY (l : List Pin) : List Pin :=
  l.insertionSort (fun a b => oby a ≤ oby b)

/-- Python `list.sort(key=obx)` (line 160): stable ascending sort by x. -/
def sortByX (l : List Pin) : List Pin :=
  l.insertionSort (fun a b => obx a ≤ obx b)

/-- Fold of `_read` (lines 92-93) computing `self._min_y`: starts at the
sentinel `-1` and replaces it when `p.y < min` or `min == -1`. -/
def readMinY (pool : List Pin) : ℤ :=
  pool.foldl (fun m p => if p.y < m ∨ m = -1 then p.y else m) (-1)

/-- Fold of `_read` (lines 94-95) computing `self._max_y`. -/
def readMaxY (pool : List Pin) : ℤ :=
  pool.foldl (fun m p => if p.y > m ∨ m = -1 then p.y else m) (-1)

/-- The 33 interval boundaries of `Chip.__init__` (lines 59-62):
`intervals[i] = y_0 + i*(ymax-y_0)/32` followed by `intervals[0] = y_0 - 1`. -/
def mkIntervals (pool : List Pin) : List ℚ :=
  (((List.range 33).map
      (fun (i : ℕ) => (readMinY pool : ℚ) +
        (i : ℚ) * ((readMaxY pool : ℚ) - (readMinY pool : ℚ)) / 32)).set
    0 ((readMinY pool : ℚ) - 1))

/-- State of a Python `Chip` object after `__init__` (parsing of the input
file is out of scope; the pin records are taken as given). -/
structure Chip where
  not_connected : List Pin
  driver_pins_plus : List Pin
  driver_pins_minus : List Pin
  graph : List Edge
  intervals : List ℚ
deriving DecidableEq

/-- Chip construction from already-parsed records (lines 50-62): empty graph,
interval boundaries computed from the free pins only. -/
def mkChip (plus minus pool : List Pin) : Chip :=
  { not_connected := pool
    driver_pins_plus := plus
    driver_pins_minus := minus
    graph := []
    intervals := mkIntervals pool }

/-- Bucket membership test of `find_paths_fast_version` (line 157):
`node.y > intervals[i] and intervals[i+1] >= node.y`. -/
def memBucket (intervals : List ℚ) (i : ℕ) (p : Pin) : Prop :=
  (p.y : ℚ) > intervals.getD i 0 ∧ intervals.getD (i + 1) 0 ≥ (p.y : ℚ)

instance (intervals : List ℚ) (i : ℕ) (p : Pin) : Decidable (memBucket intervals i p) :=
  inferInstanceAs (Decidable (_ ∧ _))

/-- Contents of `selection[i]` after the assignment loop (lines 155-158):
the free pins whose y falls in bucket `i`, in pool order. -/
def bucketPins (intervals : List ℚ) (pool : List Pin) (i : ℕ) : List Pin :=
  pool.filter (fun p => decide (memBucket intervals i p))

/-- Contents of `selection[i]` after the per-bucket sort (lines 159-160). -/
def selSorted (intervals : List ℚ) (pool : List Pin) (i : ℕ) : List Pin :=
  sortByX (bucketPins intervals pool i)

/-- Method `_add_edge` (lines 112-129): constructs `Edge(a, b)`.  The chain
index parameter `i` of the Python method is used only to index
`partial_distance`; it is NOT forwarded to the `Edge` constructor, so the
stored chain index is the default `0`.  The distance bookkeeping of the
Python method is recovered below by summing `Edge.dist` over the produced
edge lists. -/
def _add_edge (a b : Pin) : Edge :=
  Edge.mk a b 0

/-- Edges added by the loop `for j in range(len(act_sel)-1)` (lines 166-167):
`act_sel[j] -> act_sel[j+1]` for ascending `j`. -/
def ascEdges (l : List Pin) : List Edge :=
  (l.zip l.tail).map (fun q => _add_edge q.1 q.2)

/-- Edges added by the loop `for j in range(len(next_sel)-1)` (lines 171-172):
`next_sel[j+1] -> next_sel[j]` for ascending `j`. -/
def descEdges (l : List Pin) : List Edge :=
  (l.zip l.tail).map (fun q => _add_edge q.2 q.1)

/-- Edges appended to `self.graph` during iteration `i` of the chain loop of
`find_paths_fast_version` (lines 162-173), in order of addition.  Each list
access of the Python code (`driver_pins_plus[i]`, `act_sel[0]`,
`act_sel[-1]`, `next_sel[-1]`, `next_sel[0]`, `driver_pins_minus[i]`) is an
`Option` bind; `none` models the `IndexError` raised on an empty bucket or a
short driver list. -/
def fastChainEdges (plusS minusS : List Pin) (sel : ℕ → List Pin) (i : ℕ) :
    Option (List Edge) := do
  let dp ← plusS[i]?
  let act := sel i
  let a0 ← act.head?
  let nxt := sel (16 + i)
  let alast ← act.getLast?
  let nlast ← nxt.getLast?
  let n0 ← nxt.head?
  let dm ← minusS[i]?
  some ([_add_edge dp a0] ++ ascEdges act ++ [_add_edge alast nlast] ++
    descEdges nxt ++ [_add_edge n0 dm])

/-- The chain loop `for i in range(16)` (line 162) over a list of chain
indices, collecting the per-chain edge lists; a crash in any iteration
aborts the whole run. -/
def fastLoop (plusS minusS : List Pin) (sel : ℕ → List Pin) :
    List ℕ → Option (List (List Edge))
  | [] => some []
  | i :: rest => do
    let es ← fastChainEdges plusS minusS sel i
    let tl ← fastLoop plusS minusS sel rest
    some (es :: tl)

/-- Per-chain edge lists produced by `find_paths_fast_version` on a chip:
the driver lists are sorted by y (lines 149-150), the free pins are
partitioned into the 32 buckets and sorted by x (lines 153-160), and the 16
chains are built (lines 162-173). -/
def fastChains (c : Chip) : Option (List (List Edge)) :=
  fastLoop (sortByY c.driver_pins_plus) (sortByY c.driver_pins_minus)
    (selSorted c.intervals c.not_connected) (List.range 16)

/-- Method `_statistics` (lines 97-110).  Returns the pair
`(sum(deviations)/(len(sample)-1), mean)`; the Python method returns
`(np.sqrt(first component), mean)`.  `none` models the `ZeroDivisionError`
raised when `len(sample) < 2` (at the mean for an empty list, at the
variance for a singleton). -/
def _statistics (sample : List ℤ) : Option (ℚ × ℚ) :=
  if 2 ≤ sample.length then
    let mean : ℚ := (((sample.sum : ℤ) : ℚ)) / (sample.length : ℚ)
    let deviations : List ℚ := sample.map (fun x => ((x : ℚ) - mean) ^ 2)
    some (deviations.sum / ((sample.length : ℚ) - 1), mean)
  else none

/-- Method `find_paths_fast_version` (lines 131-176).  Returns the updated
chip state together with `global_distance` and the statistics pair of
`_statistics` (variance and mean).  The free-pin pool `not_connected` is not
touched anywhere in the Python method, so the returned state carries it
unchanged; the in-place driver sorts of lines 149-150 are reflected in the
returned state. -/
def find_paths_fast_version (c : Chip) : Option (Chip × ℤ × ℚ × ℚ) := do
  let plusS := sortByY c.driver_pins_plus
  let minusS := sortByY c.driver_pins_minus
  let chains ← fastLoop plusS minusS (selSorted c.intervals c.not_connected)
    (List.range 16)
  let graph := c.graph ++ chains.flatten
  let global_distance := (chains.flatten.map Edge.dist).sum
  let partial_distance := chains.map (fun es => (es.map Edge.dist).sum)
  let (v, m) ← _statistics partial_distance
  some ({ c with
            graph := graph
            driver_pins_plus := plusS
            driver_pins_minus := minusS }, global_distance, v, m)

/-- Per-pin, per-edge insertion cost computed inside `_min_edge`
(lines 192-194): `Edge(edge.conn_in, node).dist + Edge(edge.conn_out, node).dist
- edge.dist`. -/
def deltaOf (e : Edge) (p : Pin) : ℤ :=
  manhattan e.conn_in p + manhattan e.conn_out p - e.dist

/-- One step of the scan of `_min_edge` (lines 191-198): running state
`(first, minim, answer)`, updated when `dist < minim or first`. -/
def minEdgeF (node : Pin) (st : Bool × ℤ × Edge) (edge : Edge) : Bool × ℤ × Edge :=
  if deltaOf edge node < st.2.1 ∨ st.1 then (false, deltaOf edge node, edge)
  else st

/-- Scan of `_min_edge` (lines 188-198) with the initial running state
`first = True`, `minim = 0`, `answer = a0`: keeps the first edge achieving
the strictly smallest insertion cost. -/
def min_edgeAux (graph : List Edge) (a0 : Edge) (node : Pin) : Edge :=
  (graph.foldl (minEdgeF node) (true, 0, a0)).2.2

/-- Method `_min_edge` (lines 178-199).  `answer` is initialised to
`self.graph[0]`, so an empty graph raises `IndexError` (`none`). -/
def _min_edge (graph : List Edge) (node : Pin) : Option Edge :=
  match graph with
  | [] => none
  | g0 :: gs => some (min_edgeAux (g0 :: gs) g0 node)

/-- Selection loop of one iteration of `find_paths_slow_version`
(lines 226-236): scans the pool with running state `first = True`,
`minim = 0`, `old = None`, calling `_min_edge` on every pool pin and keeping
the pin whose returned edge has the strictly smallest STORED DISTANCE
(`minim > deleted_edge.dist`, line 232). -/
def slowSelectF (graph : List Edge)
    (st : Option (Bool × ℤ × Option (Pin × Edge))) (node : Pin) :
    Option (Bool × ℤ × Option (Pin × Edge)) := do
  let s ← st
  let de ← _min_edge graph node
  if s.1 ∨ s.2.1 > de.dist then pure (false, de.dist, some (node, de))
  else pure s

/-- Fold of the selection loop over the whole pool with the initial state
`first = True`, `minim = 0`, no candidate yet. -/
def slowSelect (graph : List Edge) (pool : List Pin) : Option (Pin × Edge) :=
  (pool.foldl (slowSelectF graph) (some (true, 0, none))).bind (fun s => s.2.2)

/-- Body of the `while` loop of `find_paths_slow_version` (lines 225-250):
select `(old_node, old_edge)`, remove them from the pool and the graph,
update the totals, and append the two replacement edges
`Edge(old_edge.conn_in, old_node, i)` and `Edge(old_node, old_edge.conn_out, i)`
tagged with the removed edge's chain index. -/
def slowStep (g : List Edge) (pool : List Pin) (gd : ℤ) (pd : List ℤ) :
    Option (List Edge × List Pin × ℤ × List ℤ) := do
  let (old_node, old_edge) ← slowSelect g pool
  let pool1 := pool.erase old_node
  let g1 := g.erase old_edge
  let gd1 := gd - old_edge.dist
  let i := old_edge.i
  let pd1 := pd.set i (pd.getD i 0 - old_edge.dist)
  let e1 : Edge := Edge.mk old_edge.conn_in old_node i
  let g2 := g1 ++ [e1]
  let gd2 := gd1 + e1.dist
  let pd2 := pd1.set i (pd1.getD i 0 + e1.dist)
  let e2 : Edge := Edge.mk old_node old_edge.conn_out i
  some (g2 ++ [e2], pool1, gd2 + e2.dist, pd2.set i (pd2.getD i 0 + e2.dist))

/-- The `while (len(self.not_connected) > 0)` loop (line 225).  Each
successful iteration removes exactly one pool pin, so the loop runs exactly
`pool.length` times; the fuel argument is instantiated with the initial pool
length and never runs out on a successful run. -/
def slowLoop : ℕ → List Edge → List Pin → ℤ → List ℤ →
    Option (List Edge × List Pin × ℤ × List ℤ)
  | 0, g, pool, gd, pd => if pool.isEmpty then some (g, pool, gd, pd) else none
  | fuel + 1, g, pool, gd, pd =>
    if pool.isEmpty then some (g, pool, gd, pd)
    else do
      let (g2, pool2, gd2, pd2) ← slowStep g pool gd pd
      slowLoop fuel g2 pool2 gd2 pd2

/-- Initial degenerate chains of `find_paths_slow_version` (lines 217-223):
`Edge(driver_pins_plus[i], driver_pins_minus[i], i)` for each `i`. -/
def slowInitEdges (plus minus : List Pin) : List Edge :=
  ((plus.zip minus).enum).map (fun x => Edge.mk x.2.1 x.2.2 x.1)

/-- Method `find_paths_slow_version` (lines 201-252).  The guards model the
`IndexError` raised when `driver_pins_minus` is shorter than
`driver_pins_plus` (line 219) and when more than 16 chains index
`partial_distance` (line 223). -/
def find_paths_slow_version (c : Chip) : Option (Chip × ℤ × ℚ × ℚ) :=
  if c.driver_pins_minus.length < c.driver_pins_plus.length then none
  else if 16 < c.driver_pins_plus.length then none
  else do
    let initE := slowInitEdges c.driver_pins_plus c.driver_pins_minus
    let g0 := c.graph ++ initE
    let gd0 := (initE.map Edge.dist).sum
    let pd0 := initE.foldl (fun pd e => pd.set e.i (pd.getD e.i 0 + e.dist))
      (List.replicate 16 0)
    let r ← slowLoop c.not_connected.length g0 c.not_connected gd0 pd0
    let (v, m) ← _statistics r.2.2.2
    some ({ c with
              graph := r.1
              not_connected := r.2.1 }, r.2.2.1, v, m)

/-- Number of edges of `g` having `p` as their `conn_in` pin. -/
def countIn (g : List Edge) (p : Pin) : ℕ :=
  (g.map Edge.conn_in).count p

/-- Number of edges of `g` having `p` as their `conn_out` pin. -/
def countOut (g : List Edge) (p : Pin) : ℕ :=
  (g.map Edge.conn_out).count p

/-- Walks the produced graph from a pin by repeatedly following the unique
outgoing edge (the chain-following step of the external validator); stops at
a pin with no outgoing edge or when the fuel runs out. -/
def followChain (g : List Edge) : ℕ → Pin → Pin
  | 0, p => p
  | fuel + 1, p =>
    match g.find? (fun e => decide (e.conn_in = p)) with
    | some e => followChain g fuel e.conn_out
    | none => p


/-! ### Shared helper lemmas -/

/-- Commutativity of the Manhattan distance. -/
theorem manhattan_comm (a b : Pin) : manhattan a b = manhattan b a := by
  unfold manhattan
  omega

/-- Triangle inequality for the Manhattan distance. -/
theorem manhattan_triangle (u v w : Pin) :
    manhattan u v ≤ manhattan u w + manhattan w v := by
  unfold manhattan
  omega

/-- Insertion costs are never negative. -/
theorem deltaOf_nonneg (e : Edge) (p : Pin) : 0 ≤ deltaOf e p := by
  have h := manhattan_triangle e.conn_in e.conn_out p
  have h2 := manhattan_comm p e.conn_out
  unfold deltaOf Edge.dist at *
  omega

/-- Unfolding a successful `slowStep`: the structure of the performed
replacement, and the new global total written as old total plus the
insertion cost of the selected pin into the selected edge. -/
theorem slowStep_eq_some {g : List Edge} {pool : List Pin} {gd : ℤ}
    {pd : List ℤ} {g2 : List Edge} {pool2 : List Pin} {gd2 : ℤ} {pd2 : List ℤ}
    (h : slowStep g pool gd pd = some (g2, pool2, gd2, pd2)) :
    ∃ n e, slowSelect g pool = some (n, e) ∧
      g2 = (g.erase e) ++ [Edge.mk e.conn_in n e.i] ++ [Edge.mk n e.conn_out e.i] ∧
      pool2 = pool.erase n ∧
      gd2 = gd + deltaOf e n := by
  simp only [slowStep, Option.bind_eq_bind, Option.bind_eq_some] at h
  obtain ⟨⟨n, e⟩, hsel, h2⟩ := h
  simp only [Option.some.injEq, Prod.mk.injEq] at h2
  obtain ⟨hg, hp, hgd, hpd⟩ := h2
  refine ⟨n, e, hsel, ?_, hp.symm, ?_⟩
  · rw [← hg, List.append_assoc]
  · rw [← hgd]
    have hc := manhattan_comm n e.conn_out
    simp only [deltaOf, Edge.dist]
    omega

/-- The global total never decreases across one insertion step. -/
theorem slowStep_le {g : List Edge} {pool : List Pin} {gd : ℤ} {pd : List ℤ}
    {g2 : List Edge} {pool2 : List Pin} {gd2 : ℤ} {pd2 : List ℤ}
    (h : slowStep g pool gd pd = some (g2, pool2, gd2, pd2)) : gd ≤ gd2 := by
  obtain ⟨n, e, _, _, _, hgd⟩ := slowStep_eq_some h
  have := deltaOf_nonneg e n
  omega

/-- The global total never decreases across the whole insertion loop. -/
theorem slowLoop_le (fuel : ℕ) :
    ∀ g pool gd pd r, slowLoop fuel g pool gd pd = some r → gd ≤ r.2.2.1 := by
  induction fuel with
  | zero =>
    intro g pool gd pd r h
    simp only [slowLoop] at h
    split at h
    · cases h
      exact le_refl _
    · cases h
  | succ f ih =>
    intro g pool gd pd r h
    simp only [slowLoop] at h
    split at h
    · cases h
      exact le_refl _
    · simp only [Option.bind_eq_bind, Option.bind_eq_some] at h
      obtain ⟨⟨g2, pool2, gd2, pd2⟩, h1, h2⟩ := h
      exact le_trans (slowStep_le h1) (ih _ _ _ _ _ h2)

/-! ### Claim C9 -/

/-- C9: the Manhattan distance computed in `Edge.__init__`,
`d(a,b) = |a.x-b.x| + |a.y-b.y|`, is total on integer points (every edge
stores it), commutative, and satisfies the triangle inequality
`d(u,w) + d(w,v) >= d(u,v)`. -/
theorem C9_manhattan_metric :
    (∀ (a b : Pin) (i : ℕ), (Edge.mk a b i).dist =
      ((a.x - b.x).natAbs : ℤ) + ((a.y - b.y).natAbs : ℤ)) ∧
    (∀ a b : Pin, manhattan a b = manhattan b a) ∧
    (∀ u v w : Pin, manhattan u w + manhattan w v ≥ manhattan u v) := by
  refine ⟨fun a b i => rfl, manhattan_comm, fun u v w => manhattan_triangle u v w⟩

/-! ### Claim C8 -/

/-- C8: `_statistics` on k >= 2 samples returns the arithmetic mean and the
sample standard deviation obtained by dividing the squared deviations by
k-1 (the embedding returns the radicand, i.e. the square of the standard
deviation `np.sqrt` produces); on `[10, 12, 14, 8]` the mean is `11` and the
variance is `20/3`, so the standard deviation is `Real.sqrt (20/3) ≈ 2.58`;
for fewer than two samples the computation fails (`ZeroDivisionError`,
modelled as `none`). -/
theorem C8_statistics_spec :
    _statistics [10, 12, 14, 8] = some (20 / 3, 11) ∧
    Real.sqrt (20 / 3) ^ 2 = 20 / 3 ∧
    (∀ sample : List ℤ, sample.length < 2 → _statistics sample = none) := by
  refine ⟨by with_unfolding_all rfl, Real.sq_sqrt (by norm_num), ?_⟩
  intro sample h
  simp only [_statistics]
  rw [if_neg (by omega)]

/-- Witness for C8 at the concrete inputs `[10, 12, 14, 8]` and `[5]`. -/
theorem C8_statistics_spec_witness :
    _statistics [10, 12, 14, 8] = some (20 / 3, 11) ∧ _statistics [5] = none :=
  ⟨C8_statistics_spec.1, C8_statistics_spec.2.2 [5] (by decide)⟩

/-! ### Claim C1 -/

/-- Free pin whose cheapest insertion has cost 0 (into `c1long`). -/
def c1A : Pin := Pin.mk "a" 50 0

/-- Free pin whose cheapest insertion has cost 20 (into `c1short`). -/
def c1B : Pin := Pin.mk "b" 2 60

/-- A long edge (distance 100) that pin `c1A` can join for free. -/
def c1long : Edge := Edge.mk (Pin.mk "p0" 0 0) (Pin.mk "m0" 100 0) 0

/-- A short edge (distance 5) whose best insertion (of `c1B`) costs 20. -/
def c1short : Edge := Edge.mk (Pin.mk "p1" 0 50) (Pin.mk "m1" 5 50) 1

/-- Two-chain graph exhibiting the selection bug of the slow builder. -/
def c1graph : List Edge := [c1long, c1short]

/-- Free-pin pool exhibiting the selection bug of the slow builder. -/
def c1pool : List Pin := [c1A, c1B]

/-- C1 (code bug, shown at a failing input): the docstring of
`find_paths_slow_version` and the spec say the loop selects the pin whose
minimum insertion delta is smallest, but line 232 compares
`deleted_edge.dist` (the stored length of each pin's best edge) instead of
the delta.  Here pin `c1A` has minimum delta 0 and pin `c1B` has minimum
delta 20, so the documented rule would pick `c1A`; the code picks `c1B`
because its best edge is shorter (5 < 100). -/
theorem C1_selection_compares_edge_length :
    slowSelect c1graph c1pool = some (c1B, c1short) ∧
    _min_edge c1graph c1A = some c1long ∧
    _min_edge c1graph c1B = some c1short ∧
    deltaOf c1long c1A = 0 ∧
    deltaOf c1short c1B = 20 ∧
    (c1graph.all fun e => decide (deltaOf c1long c1A ≤ deltaOf e c1A)) = true ∧
    (c1graph.all fun e => decide (deltaOf c1short c1B ≤ deltaOf e c1B)) = true ∧
    deltaOf c1long c1A < deltaOf c1short c1B ∧
    c1short.dist = 5 ∧ c1long.dist = 100 := by
  decide

/-! ### Claim C2 -/

/-- C2: every performed replacement in the slow builder has nonnegative
insertion delta (`distance(e.from, p) + distance(p, e.to) - e.dist >= 0`),
the global total after an iteration equals the total before plus that
delta, and hence the total is non-decreasing across each iteration and
across the whole loop. -/
theorem C2_slow_total_monotone :
    (∀ (e : Edge) (p : Pin), 0 ≤ deltaOf e p) ∧
    (∀ (g : List Edge) (pool : List Pin) (gd : ℤ) (pd : List ℤ)
        (g2 : List Edge) (pool2 : List Pin) (gd2 : ℤ) (pd2 : List ℤ),
      slowStep g pool gd pd = some (g2, pool2, gd2, pd2) →
        (∃ n e, slowSelect g pool = some (n, e) ∧ gd2 = gd + deltaOf e n) ∧
        gd ≤ gd2) ∧
    (∀ (fuel : ℕ) (g : List Edge) (pool : List Pin) (gd : ℤ) (pd : List ℤ) r,
      slowLoop fuel g pool gd pd = some r → gd ≤ r.2.2.1) := by
  refine ⟨deltaOf_nonneg, ?_, slowLoop_le⟩
  intro g pool gd pd g2 pool2 gd2 pd2 h
  obtain ⟨n, e, h1, _, _, hgd⟩ := slowStep_eq_some h
  exact ⟨⟨n, e, h1, hgd⟩, slowStep_le h⟩

/-- Concrete edge for the C2 witness. -/
def c2e : Edge := Edge.mk (Pin.mk "u" 0 0) (Pin.mk "v" 1 0) 0

/-- Concrete pin for the C2 witness. -/
def c2p : Pin := Pin.mk "w" 0 1

/-- First replacement edge produced in the C2 witness step. -/
def c2e1 : Edge := Edge.mk (Pin.mk "u" 0 0) c2p 0

/-- Second replacement edge produced in the C2 witness step. -/
def c2e2 : Edge := Edge.mk c2p (Pin.mk "v" 1 0) 0

/-- Witness for C2: one concrete insertion step (and the one-step loop) on a
single-edge graph, raising the total from 0 to 2 = 0 + delta. -/
theorem C2_slow_total_monotone_witness :
    slowStep [c2e] [c2p] 0 [] = some ([c2e1, c2e2], [], 2, []) ∧
    ((∃ n e, slowSelect [c2e] [c2p] = some (n, e) ∧ (2:ℤ) = 0 + deltaOf e n) ∧
      (0:ℤ) ≤ 2) ∧
    (0:ℤ) ≤ 2 := by
  refine ⟨by decide,
    C2_slow_total_monotone.2.1 [c2e] [c2p] 0 [] [c2e1, c2e2] [] 2 [] (by decide), ?_⟩
  exact C2_slow_total_monotone.2.2 1 [c2e] [c2p] 0 [] ([c2e1, c2e2], [], 2, [])
    (by decide)

/-! ### A concrete chip on which both builders run to completion.
32 free pins fill all 32 buckets (min y = 0, max y = 32, so the bucket
boundaries are the integers 1..32 with the first boundary lowered to -1);
the input drivers are listed with descending y, the output drivers with
ascending y, so the y-sort of the fast builder reverses the input pairing. -/

/-- Free pins with y-coordinates 0, 2, 3, ..., 32: exactly one per bucket
except bucket 0 (which receives the pin at y = 0). -/
def ccPool : List Pin :=
  Pin.mk "f" 0 0 :: (List.range 31).map (fun j => Pin.mk "f" 0 ((j : ℤ) + 2))

/-- Input drivers with y = 15, 14, ..., 0 (descending). -/
def ccPlus : List Pin :=
  (List.range 16).map (fun j => Pin.mk "p" 100 (15 - (j : ℤ)))

/-- Output drivers with y = 0, 1, ..., 15 (ascending). -/
def ccMinus : List Pin :=
  (List.range 16).map (fun j => Pin.mk "m" 200 ((j : ℤ)))

/-- The concrete chip. -/
def ccChip : Chip := mkChip ccPlus ccMinus ccPool

/-- The input drivers after the fast builder's y-sort (ascending). -/
def ccPlusS : List Pin :=
  (List.range 16).map (fun j => Pin.mk "p" 100 ((j : ℤ)))

/-- Per-chain edge lists the fast builder produces on `ccChip`: chain `i`
joins driver `p(100,i)` to the single pin of bucket `i`, crosses over to the
single pin of bucket `16+i`, and ends at driver `m(200,i)`; every stored
chain index is 0. -/
def ccChains : List (List Edge) :=
  (List.range 16).map (fun i =>
    [Edge.mk (Pin.mk "p" 100 (i : ℤ))
       (Pin.mk "f" 0 (if i = 0 then 0 else (i : ℤ) + 1)) 0,
     Edge.mk (Pin.mk "f" 0 (if i = 0 then 0 else (i : ℤ) + 1))
       (Pin.mk "f" 0 ((i : ℤ) + 17)) 0,
     Edge.mk (Pin.mk "f" 0 ((i : ℤ) + 17)) (Pin.mk "m" 200 (i : ℤ)) 0])

/-- Full result of the fast builder on `ccChip` (all 16 chains have length
334, so the variance is 0 and the mean is 334; the pool is untouched). -/
def ccFastR : Chip × ℤ × ℚ × ℚ :=
  ({ not_connected := ccPool
     driver_pins_plus := ccPlusS
     driver_pins_minus := ccMinus
     graph := ccChains.flatten
     intervals := mkIntervals ccPool }, 5344, 0, 334)

/-- Evaluated run of the fast builder on the concrete chip. -/
theorem ccFast_eq : find_paths_fast_version ccChip = some ccFastR := by
  with_unfolding_all rfl

/-- Evaluated per-chain edge lists of the fast builder on the concrete chip. -/
theorem ccChains_eq : fastChains ccChip = some ccChains := by
  with_unfolding_all rfl

/-- Final graph of the slow builder on `ccChip`: the degenerate chains 1-15
survive unchanged (tagged with their chain index), while all 32 free pins
are inserted into chain 0, whose edges carry tag 0. -/
def ccSlowGraph : List Edge :=
  (List.range 15).map (fun (j : ℕ) =>
    Edge.mk (Pin.mk "p" 100 (14 - (j : ℤ))) (Pin.mk "m" 200 ((j : ℤ) + 1)) (j + 1)) ++
  [Edge.mk (Pin.mk "f" 0 0) (Pin.mk "m" 200 0) 0] ++
  (List.range 30).map (fun (j : ℕ) =>
    Edge.mk (Pin.mk "f" 0 ((j : ℤ) + 2))
      (Pin.mk "f" 0 (if j = 0 then 0 else (j : ℤ) + 1)) 0) ++
  [Edge.mk (Pin.mk "p" 100 15) (Pin.mk "f" 0 32) 0,
   Edge.mk (Pin.mk "f" 0 32) (Pin.mk "f" 0 31) 0]

/-- Full result of the slow builder on `ccChip`. -/
def ccSlowR : Chip × ℤ × ℚ × ℚ :=
  ({ not_connected := []
     driver_pins_plus := ccPlus
     driver_pins_minus := ccMinus
     graph := ccSlowGraph
     intervals := mkIntervals ccPool }, 1962, 73261 / 20, 981 / 8)

/-- Evaluated run of the slow builder on the concrete chip. -/
theorem ccSlow_eq : find_paths_slow_version ccChip = some ccSlowR := by
  with_unfolding_all rfl

/-! ### Inversion lemmas for the builders -/

/-- The running answer of the `_min_edge` scan is an edge of the scanned
list, or it is still the initial answer. -/
theorem minEdgeF_foldl_mem (node : Pin) :
    ∀ (l : List Edge) (st : Bool × ℤ × Edge),
      (l.foldl (minEdgeF node) st).2.2 ∈ l ∨
        (l.foldl (minEdgeF node) st).2.2 = st.2.2 := by
  intro l
  induction l with
  | nil =>
    intro st
    exact Or.inr rfl
  | cons a t ih =>
    intro st
    rcases ih (minEdgeF node st a) with h | h
    · exact Or.inl (List.mem_cons_of_mem _ h)
    · rw [List.foldl_cons, h]
      unfold minEdgeF
      split
      · exact Or.inl (List.mem_cons_self _ _)
      · exact Or.inr rfl

/-- Any edge returned by `_min_edge` belongs to the graph. -/
theorem _min_edge_mem {graph : List Edge} {node : Pin} {e : Edge}
    (h : _min_edge graph node = some e) : e ∈ graph := by
  cases graph with
  | nil => exact Option.noConfusion h
  | cons g0 gs =>
    simp only [_min_edge, Option.some.injEq] at h
    subst h
    rcases minEdgeF_foldl_mem node (g0 :: gs) (true, 0, g0) with h | h
    · exact h
    · rw [min_edgeAux, h]
      exact List.mem_cons_self _ _

/-- Invariant of the selection fold: every candidate stored in the running
state was obtained by `_min_edge` from a pin of the scanned pool. -/
theorem slowSelect_fold_inv {graph : List Edge} {S : List Pin} :
    ∀ (l : List Pin) (st : Option (Bool × ℤ × Option (Pin × Edge))),
      (∀ p ∈ l, p ∈ S) →
      (∀ s, st = some s → ∀ n e, s.2.2 = some (n, e) →
        n ∈ S ∧ _min_edge graph n = some e) →
      ∀ s, l.foldl (slowSelectF graph) st = some s →
        ∀ n e, s.2.2 = some (n, e) → n ∈ S ∧ _min_edge graph n = some e := by
  intro l
  induction l with
  | nil =>
    intro st _ hst s hfold
    exact hst s hfold
  | cons p t ih =>
    intro st hsub hst s hfold
    refine ih (slowSelectF graph st p) (fun q hq => hsub q (List.mem_cons_of_mem _ hq))
      ?_ s hfold
    intro s2 hs2 n e hpay
    cases st with
    | none => exact Option.noConfusion hs2
    | some s0 =>
      cases hme : _min_edge graph p with
      | none =>
        rw [slowSelectF] at hs2
        simp only [Option.bind_eq_bind, Option.some_bind, hme, Option.none_bind] at hs2
        exact Option.noConfusion hs2
      | some de =>
        rw [slowSelectF] at hs2
        simp only [Option.bind_eq_bind, Option.some_bind, hme] at hs2
        split at hs2
        · cases hs2
          cases hpay
          exact ⟨hsub p (List.mem_cons_self _ _), hme⟩
        · cases hs2
          exact hst _ rfl n e hpay

/-- Any successful selection returns a pin of the pool together with the
edge that `_min_edge` computed for it; that edge belongs to the graph. -/
theorem slowSelect_mem {graph : List Edge} {pool : List Pin} {n : Pin}
    {e : Edge} (h : slowSelect graph pool = some (n, e)) :
    n ∈ pool ∧ _min_edge graph n = some e ∧ e ∈ graph := by
  rw [slowSelect] at h
  cases hf : pool.foldl (slowSelectF graph) (some (true, 0, none)) with
  | none =>
    rw [hf] at h
    exact Option.noConfusion h
  | some s =>
    rw [hf] at h
    simp only [Option.some_bind] at h
    have hmain := @slowSelect_fold_inv graph pool pool (some (true, 0, none))
      (fun p hp => hp) ?_ s hf n e h
    · exact ⟨hmain.1, hmain.2, _min_edge_mem hmain.2⟩
    · intro s0 hs0 n0 e0 hp0
      cases hs0
      exact Option.noConfusion hp0

/-- On any successful run the insertion loop has emptied the pool. -/
theorem slowLoop_pool_empty :
    ∀ (fuel : ℕ) (g : List Edge) (pool : List Pin) (gd : ℤ) (pd : List ℤ) r,
      slowLoop fuel g pool gd pd = some r → r.2.1 = [] := by
  intro fuel
  induction fuel with
  | zero =>
    intro g pool gd pd r h
    simp only [slowLoop] at h
    split at h
    · cases h
      exact List.isEmpty_iff.mp (by assumption)
    · cases h
  | succ f ih =>
    intro g pool gd pd r h
    simp only [slowLoop] at h
    split at h
    · cases h
      exact List.isEmpty_iff.mp (by assumption)
    · simp only [Option.bind_eq_bind, Option.bind_eq_some] at h
      obtain ⟨⟨g2, pool2, gd2, pd2⟩, _, h2⟩ := h
      exact ih _ _ _ _ _ h2

/-- Inversion of a successful slow run: the guards passed, the loop ran to
an empty pool, and the returned state carries the loop's graph with the
untouched driver lists. -/
theorem find_paths_slow_eq_some {c : Chip} {r : Chip × ℤ × ℚ × ℚ}
    (h : find_paths_slow_version c = some r) :
    c.driver_pins_plus.length ≤ c.driver_pins_minus.length ∧
    c.driver_pins_plus.length ≤ 16 ∧
    ∃ g2 gd2 pd2 v m,
      slowLoop c.not_connected.length
        (c.graph ++ slowInitEdges c.driver_pins_plus c.driver_pins_minus)
        c.not_connected
        (((slowInitEdges c.driver_pins_plus c.driver_pins_minus).map Edge.dist).sum)
        ((slowInitEdges c.driver_pins_plus c.driver_pins_minus).foldl
          (fun pd e => pd.set e.i (pd.getD e.i 0 + e.dist)) (List.replicate 16 0)) =
        some (g2, [], gd2, pd2) ∧
      _statistics pd2 = some (v, m) ∧
      r = ({ c with graph := g2, not_connected := [] }, gd2, v, m) := by
  simp only [find_paths_slow_version] at h
  split at h
  · exact Option.noConfusion h
  split at h
  · exact Option.noConfusion h
  simp only [Option.bind_eq_bind, Option.bind_eq_some] at h
  obtain ⟨⟨g2, pool2, gd2, pd2⟩, h1, h2⟩ := h
  have hp2 : pool2 = [] := slowLoop_pool_empty _ _ _ _ _ _ h1
  subst hp2
  obtain ⟨⟨v, m⟩, h3, h4⟩ := h2
  refine ⟨by omega, by omega, g2, gd2, pd2, v, m, h1, h3, ?_⟩
  cases h4
  rfl

/-- Inversion of a successful fast run. -/
theorem find_paths_fast_eq_some {c : Chip} {r : Chip × ℤ × ℚ × ℚ}
    (h : find_paths_fast_version c = some r) :
    ∃ chains v m,
      fastLoop (sortByY c.driver_pins_plus) (sortByY c.driver_pins_minus)
        (selSorted c.intervals c.not_connected) (List.range 16) = some chains ∧
      _statistics (chains.map (fun es => (es.map Edge.dist).sum)) = some (v, m) ∧
      r = ({ c with
              graph := c.graph ++ chains.flatten
              driver_pins_plus := sortByY c.driver_pins_plus
              driver_pins_minus := sortByY c.driver_pins_minus },
        (chains.flatten.map Edge.dist).sum, v, m) := by
  simp only [find_paths_fast_version, Option.bind_eq_bind, Option.bind_eq_some] at h
  obtain ⟨chains, h1, h2⟩ := h
  obtain ⟨⟨v, m⟩, h3, h4⟩ := h2
  refine ⟨chains, v, m, h1, h3, ?_⟩
  cases h4
  rfl

/-! ### Claim C4 -/

/-- C4 counterexample: on the concrete chip the fast builder returns with
the free-pin pool untouched (still holding all 32 pins), so the claim that
`not_connected` is empty after `find_paths_fast_version` returns is false. -/
theorem C4_fast_pool_counterexample :
    (find_paths_fast_version ccChip).map (fun r => r.1.not_connected.isEmpty) =
      some false ∧
    ccChip.not_connected.length = 32 := by
  constructor
  · rw [ccFast_eq]
    rfl
  · rfl

/-- C4 amended: neither builder ever adds a pin to the pool.  The slow
builder removes exactly one pin per iteration and, whenever it returns,
`not_connected` is empty; the fast builder never touches `not_connected`,
so after it returns the pool equals its initial value (in particular it is
non-empty whenever it started non-empty). -/
theorem C4_pool_monotone :
    (∀ (g : List Edge) (pool : List Pin) (gd : ℤ) (pd : List ℤ)
        (g2 : List Edge) (pool2 : List Pin) (gd2 : ℤ) (pd2 : List ℤ),
      slowStep g pool gd pd = some (g2, pool2, gd2, pd2) →
        pool2.length < pool.length ∧ pool2 ⊆ pool) ∧
    (∀ (c : Chip) (r : Chip × ℤ × ℚ × ℚ),
      find_paths_slow_version c = some r → r.1.not_connected = []) ∧
    (∀ (c : Chip) (r : Chip × ℤ × ℚ × ℚ),
      find_paths_fast_version c = some r → r.1.not_connected = c.not_connected) := by
  refine ⟨?_, ?_, ?_⟩
  · intro g pool gd pd g2 pool2 gd2 pd2 h
    obtain ⟨n, e, hsel, _, hp, _⟩ := slowStep_eq_some h
    have hn := (slowSelect_mem hsel).1
    subst hp
    refine ⟨?_, List.erase_subset _ _⟩
    rw [List.length_erase_of_mem hn]
    have := List.length_pos_of_mem hn
    omega
  · intro c r h
    obtain ⟨_, _, g2, gd2, pd2, v, m, _, _, hr⟩ := find_paths_slow_eq_some h
    rw [hr]
  · intro c r h
    obtain ⟨chains, v, m, _, _, hr⟩ := find_paths_fast_eq_some h
    rw [hr]

/-- Left driver pin of the one-chain witness chip. -/
def wP : Pin := Pin.mk "wp" 0 1

/-- Right driver pin of the one-chain witness chip. -/
def wM : Pin := Pin.mk "wm" 2 3

/-- Result of the slow builder on the one-chain chip with no free pins. -/
def wSlowR : Chip × ℤ × ℚ × ℚ :=
  ({ not_connected := []
     driver_pins_plus := [wP]
     driver_pins_minus := [wM]
     graph := [Edge.mk wP wM 0]
     intervals := mkIntervals [] }, 4, 1, 1 / 4)

/-- Evaluated run of the slow builder on the one-chain witness chip. -/
theorem wSlow_eq : find_paths_slow_version (mkChip [wP] [wM] []) = some wSlowR := by
  with_unfolding_all rfl

/-- Witness for C4's amended statement at concrete runs of both builders. -/
theorem C4_pool_monotone_witness :
    (([] : List Pin).length < [c2p].length ∧ ([] : List Pin) ⊆ [c2p]) ∧
    wSlowR.1.not_connected = [] ∧
    ccFastR.1.not_connected = ccChip.not_connected :=
  ⟨C4_pool_monotone.1 [c2e] [c2p] 0 [] [c2e1, c2e2] [] 2 [] (by decide),
   C4_pool_monotone.2.1 (mkChip [wP] [wM] []) wSlowR wSlow_eq,
   C4_pool_monotone.2.2 ccChip ccFastR ccFast_eq⟩

/-! ### Claim C5 -/

/-- Every edge produced by one fast-builder chain carries the default chain
index 0 (the `i` argument of `_add_edge` is never forwarded to `Edge`). -/
theorem fastChainEdges_tag {plusS minusS : List Pin} {sel : ℕ → List Pin}
    {i : ℕ} {es : List Edge} (h : fastChainEdges plusS minusS sel i = some es) :
    ∀ e ∈ es, e.i = 0 := by
  simp only [fastChainEdges, Option.bind_eq_bind, Option.bind_eq_some] at h
  obtain ⟨dp, hdp, h⟩ := h
  obtain ⟨a0, ha0, h⟩ := h
  obtain ⟨alast, hal, h⟩ := h
  obtain ⟨nlast, hnl, h⟩ := h
  obtain ⟨n0, hn0, h⟩ := h
  obtain ⟨dm, hdm, h⟩ := h
  cases h
  intro e he
  simp only [List.mem_append, List.mem_singleton, ascEdges, descEdges,
    List.mem_map, _add_edge] at he
  rcases he with ((((he | ⟨q, _, he⟩) | he) | ⟨q, _, he⟩) | he) <;> subst he <;> rfl

/-- Every edge produced by the fast builder's chain loop carries index 0. -/
theorem fastLoop_tag :
    ∀ (L : List ℕ) {plusS minusS : List Pin} {sel : ℕ → List Pin}
      {cs : List (List Edge)}, fastLoop plusS minusS sel L = some cs →
      ∀ es ∈ cs, ∀ e ∈ es, e.i = 0 := by
  intro L
  induction L with
  | nil =>
    intro plusS minusS sel cs h
    cases h
    intro es hes
    cases hes
  | cons i t ih =>
    intro plusS minusS sel cs h
    simp only [fastLoop, Option.bind_eq_bind, Option.bind_eq_some] at h
    obtain ⟨es0, h1, h⟩ := h
    obtain ⟨tl, h2, h⟩ := h
    cases h
    intro es hes
    rcases List.mem_cons.mp hes with hes | hes
    · subst hes
      exact fastChainEdges_tag h1
    · exact ih h2 es hes

/-- The i-th initial edge of the slow builder joins `plus[i]` to `minus[i]`
and is tagged with chain index `i`. -/
theorem slowInitEdges_getElem (plus minus : List Pin) (i : ℕ) :
    (slowInitEdges plus minus)[i]? =
      ((plus.zip minus)[i]?).map (fun q => Edge.mk q.1 q.2 i) := by
  simp only [slowInitEdges, List.getElem?_map, List.getElem?_enum]
  cases (plus.zip minus)[i]? <;> rfl

/-- C5 counterexample: on the concrete chip, every edge the fast builder
adds while constructing chain 1 stores chain index 0, not 1 (there are 16
chains, so chain 1 exists). -/
theorem C5_fast_tag_counterexample :
    (fastChains ccChip).map (fun cs => (cs.getD 1 []).map Edge.i) =
      some [0, 0, 0] ∧
    (fastChains ccChip).map List.length = some 16 := by
  constructor
  · rw [ccChains_eq]
    rfl
  · rw [ccChains_eq]
    rfl

/-- C5 amended: the slow builder tags correctly (initial edge `i` carries
index `i`; the two replacement edges inherit the chain index of the removed
edge), but every edge added by the fast builder stores the default chain
index 0, whatever chain it was added for. -/
theorem C5_chain_tags :
    (∀ (c : Chip) (cs : List (List Edge)), fastChains c = some cs →
      ∀ es ∈ cs, ∀ e ∈ es, e.i = 0) ∧
    (∀ (plus minus : List Pin) (i : ℕ),
      (slowInitEdges plus minus)[i]? =
        ((plus.zip minus)[i]?).map (fun q => Edge.mk q.1 q.2 i)) ∧
    (∀ (g : List Edge) (pool : List Pin) (gd : ℤ) (pd : List ℤ)
        (g2 : List Edge) (pool2 : List Pin) (gd2 : ℤ) (pd2 : List ℤ),
      slowStep g pool gd pd = some (g2, pool2, gd2, pd2) →
        ∃ n e, slowSelect g pool = some (n, e) ∧
          g2 = g.erase e ++ [Edge.mk e.conn_in n e.i] ++
            [Edge.mk n e.conn_out e.i]) := by
  refine ⟨?_, slowInitEdges_getElem, ?_⟩
  · intro c cs h
    exact fastLoop_tag _ h
  · intro g pool gd pd g2 pool2 gd2 pd2 h
    obtain ⟨n, e, hsel, hg, _, _⟩ := slowStep_eq_some h
    exact ⟨n, e, hsel, hg⟩

/-- First chain produced by the fast builder on the concrete chip. -/
def ccChain0 : List Edge :=
  [Edge.mk (Pin.mk "p" 100 0) (Pin.mk "f" 0 0) 0,
   Edge.mk (Pin.mk "f" 0 0) (Pin.mk "f" 0 17) 0,
   Edge.mk (Pin.mk "f" 0 17) (Pin.mk "m" 200 0) 0]

/-- Witness for C5's amended statement at concrete inputs. -/
theorem C5_chain_tags_witness :
    (Edge.mk (Pin.mk "p" 100 0) (Pin.mk "f" 0 0) 0).i = 0 ∧
    (slowInitEdges [wP] [wM])[0]? =
      (([wP].zip [wM])[0]?).map (fun q => Edge.mk q.1 q.2 0) ∧
    (∃ n e, slowSelect [c2e] [c2p] = some (n, e) ∧
      [c2e1, c2e2] = [c2e].erase e ++ [Edge.mk e.conn_in n e.i] ++
        [Edge.mk n e.conn_out e.i]) :=
  ⟨C5_chain_tags.1 ccChip ccChains ccChains_eq ccChain0 (by decide) _ (by decide),
   C5_chain_tags.2.1 [wP] [wM] 0,
   C5_chain_tags.2.2 [c2e] [c2p] 0 [] [c2e1, c2e2] [] 2 [] (by decide)⟩

/-! ### Claim C10 -/

/-- C10: the fast builder sorts both driver lists by y before pairing (the
returned chip state carries the sorted lists), while the slow builder pairs
`driver_pins_plus[i]` with `driver_pins_minus[i]` in the original read
order without sorting (its initial graph is exactly `slowInitEdges`, and
the driver lists come back unchanged); consequently on the concrete chip
`ccChip` the two builders route the input driver at `(100, 15)` to
different output drivers (`m(200,0)` for slow, `m(200,15)` for fast). -/
theorem C10_pairing_differs :
    (∀ (c : Chip) (r : Chip × ℤ × ℚ × ℚ), find_paths_fast_version c = some r →
      r.1.driver_pins_plus = sortByY c.driver_pins_plus ∧
      r.1.driver_pins_minus = sortByY c.driver_pins_minus) ∧
    (∀ (plus minus : List Pin) (r : Chip × ℤ × ℚ × ℚ),
      find_paths_slow_version (mkChip plus minus []) = some r →
      r.1.graph = slowInitEdges plus minus ∧
      r.1.driver_pins_plus = plus ∧ r.1.driver_pins_minus = minus) ∧
    ((find_paths_slow_version ccChip).map
        (fun r => followChain r.1.graph 40 (Pin.mk "p" 100 15)) =
      some (Pin.mk "m" 200 0) ∧
     (find_paths_fast_version ccChip).map
        (fun r => followChain r.1.graph 40 (Pin.mk "p" 100 15)) =
      some (Pin.mk "m" 200 15) ∧
     decide (Pin.mk "m" 200 0 = Pin.mk "m" 200 15) = false) := by
  refine ⟨?_, ?_, ?_, ?_, by decide⟩
  · intro c r h
    obtain ⟨chains, v, m, _, _, hr⟩ := find_paths_fast_eq_some h
    rw [hr]
    exact ⟨rfl, rfl⟩
  · intro plus minus r h
    obtain ⟨_, _, g2, gd2, pd2, v, m, h1, _, hr⟩ := find_paths_slow_eq_some h
    have hg2 : g2 = slowInitEdges plus minus := by
      simp only [mkChip, slowLoop, List.length_nil, List.isEmpty_nil, if_true,
        List.nil_append, Option.some.injEq, Prod.mk.injEq] at h1
      exact h1.1.symm
    rw [hr, hg2]
    exact ⟨rfl, rfl, rfl⟩
  · rw [ccSlow_eq]
    rfl
  · rw [ccFast_eq]
    rfl

/-- Witness for C10 at concrete runs of both builders. -/
theorem C10_pairing_differs_witness :
    (ccFastR.1.driver_pins_plus = sortByY ccChip.driver_pins_plus ∧
     ccFastR.1.driver_pins_minus = sortByY ccChip.driver_pins_minus) ∧
    (wSlowR.1.graph = slowInitEdges [wP] [wM] ∧
     wSlowR.1.driver_pins_plus = [wP] ∧ wSlowR.1.driver_pins_minus = [wM]) :=
  ⟨C10_pairing_differs.1 ccChip ccFastR ccFast_eq,
   C10_pairing_differs.2.1 [wP] [wM] wSlowR wSlow_eq⟩

/-! ### Claim C7 -/

/-- Specification of the running-minimum fold of `_read` once the
accumulator is nonnegative (the `-1` sentinel can no longer retrigger). -/
theorem foldlMin_spec :
    ∀ (l : List Pin) (m : ℤ), 0 ≤ m → (∀ p ∈ l, 0 ≤ p.y) →
      0 ≤ l.foldl (fun m p => if p.y < m ∨ m = -1 then p.y else m) m ∧
      l.foldl (fun m p => if p.y < m ∨ m = -1 then p.y else m) m ≤ m ∧
      ∀ p ∈ l, l.foldl (fun m p => if p.y < m ∨ m = -1 then p.y else m) m ≤ p.y := by
  intro l
  induction l with
  | nil =>
    intro m hm _
    exact ⟨hm, le_refl _, fun p hp => absurd hp (List.not_mem_nil p)⟩
  | cons q t ih =>
    intro m hm hy
    have hq : 0 ≤ q.y := hy q (List.mem_cons_self _ _)
    simp only [List.foldl_cons]
    have h0 : (0:ℤ) ≤ if q.y < m ∨ m = -1 then q.y else m := by split <;> omega
    have h1 : (if q.y < m ∨ m = -1 then q.y else m) ≤ m := by split <;> omega
    have h2 : (if q.y < m ∨ m = -1 then q.y else m) ≤ q.y := by split <;> omega
    obtain ⟨ih0, ih1, ih2⟩ :=
      ih _ h0 (fun p hp => hy p (List.mem_cons_of_mem _ hp))
    refine ⟨ih0, le_trans ih1 h1, ?_⟩
    intro p hp
    rcases List.mem_cons.mp hp with h | h
    · subst h
      exact le_trans ih1 h2
    · exact ih2 p h

/-- Specification of the running-maximum fold of `_read`. -/
theorem foldlMax_spec :
    ∀ (l : List Pin) (m : ℤ), 0 ≤ m → (∀ p ∈ l, 0 ≤ p.y) →
      m ≤ l.foldl (fun m p => if p.y > m ∨ m = -1 then p.y else m) m ∧
      ∀ p ∈ l, p.y ≤ l.foldl (fun m p => if p.y > m ∨ m = -1 then p.y else m) m := by
  intro l
  induction l with
  | nil =>
    intro m _ _
    exact ⟨le_refl _, fun p hp => absurd hp (List.not_mem_nil p)⟩
  | cons q t ih =>
    intro m hm hy
    have hq : 0 ≤ q.y := hy q (List.mem_cons_self _ _)
    simp only [List.foldl_cons]
    have h0 : (0:ℤ) ≤ if q.y > m ∨ m = -1 then q.y else m := by split <;> omega
    have h1 : m ≤ if q.y > m ∨ m = -1 then q.y else m := by split <;> omega
    have h2 : q.y ≤ if q.y > m ∨ m = -1 then q.y else m := by split <;> omega
    obtain ⟨ih1, ih2⟩ := ih _ h0 (fun p hp => hy p (List.mem_cons_of_mem _ hp))
    refine ⟨le_trans h1 ih1, ?_⟩
    intro p hp
    rcases List.mem_cons.mp hp with h | h
    · subst h
      exact le_trans h2 ih1
    · exact ih2 p h

/-- With nonnegative coordinates, `self._min_y` is a lower bound of the
free-pin y-coordinates and is itself nonnegative. -/
theorem readMinY_spec (pool : List Pin) (hne : pool ≠ [])
    (hy : ∀ p ∈ pool, 0 ≤ p.y) :
    0 ≤ readMinY pool ∧ ∀ p ∈ pool, readMinY pool ≤ p.y := by
  cases pool with
  | nil => exact absurd rfl hne
  | cons q t =>
    have hq : 0 ≤ q.y := hy q (List.mem_cons_self _ _)
    have hstep : readMinY (q :: t) =
        t.foldl (fun m p => if p.y < m ∨ m = -1 then p.y else m) q.y := by
      simp only [readMinY, List.foldl_cons]
      norm_num
    obtain ⟨h0, h1, h2⟩ :=
      foldlMin_spec t q.y hq (fun p hp => hy p (List.mem_cons_of_mem _ hp))
    rw [hstep]
    refine ⟨h0, ?_⟩
    intro p hp
    rcases List.mem_cons.mp hp with h | h
    · subst h
      exact h1
    · exact h2 p h

/-- With nonnegative coordinates, `self._max_y` is an upper bound of the
free-pin y-coordinates. -/
theorem readMaxY_spec (pool : List Pin) (hne : pool ≠ [])
    (hy : ∀ p ∈ pool, 0 ≤ p.y) :
    ∀ p ∈ pool, p.y ≤ readMaxY pool := by
  cases pool with
  | nil => exact absurd rfl hne
  | cons q t =>
    have hq : 0 ≤ q.y := hy q (List.mem_cons_self _ _)
    have hstep : readMaxY (q :: t) =
        t.foldl (fun m p => if p.y > m ∨ m = -1 then p.y else m) q.y := by
      simp only [readMaxY, List.foldl_cons]
      norm_num
    obtain ⟨h1, h2⟩ :=
      foldlMax_spec t q.y hq (fun p hp => hy p (List.mem_cons_of_mem _ hp))
    rw [hstep]
    intro p hp
    rcases List.mem_cons.mp hp with h | h
    · subst h
      exact h1
    · exact h2 p h

/-- Boundary value `i` of a chip built on the given pool. -/
def bnd (pool : List Pin) (i : ℕ) : ℚ :=
  (mkIntervals pool).getD i 0

/-- The boundary list has the 33 entries of the constructor loop. -/
theorem mkIntervals_length (pool : List Pin) : (mkIntervals pool).length = 33 := by
  simp [mkIntervals]

/-- The first boundary is lowered to `min_y - 1` (line 62). -/
theorem bnd_zero (pool : List Pin) : bnd pool 0 = (readMinY pool : ℚ) - 1 := by
  simp [bnd, mkIntervals, List.getD_eq_getElem?_getD, List.getElem?_set]

/-- Boundaries 1..32 keep the formula `y_0 + i*(ymax-y_0)/32` (line 61). -/
theorem bnd_eq (pool : List Pin) (i : ℕ) (h1 : 1 ≤ i) (h2 : i ≤ 32) :
    bnd pool i = (readMinY pool : ℚ) +
      (i : ℚ) * ((readMaxY pool : ℚ) - (readMinY pool : ℚ)) / 32 := by
  have hi : i < 33 := by omega
  simp only [bnd, mkIntervals, List.getD_eq_getElem?_getD, List.getElem?_set,
    List.getElem?_map, List.getElem?_range hi]
  rw [if_neg (by omega)]
  rfl

/-- The last boundary equals `max_y` exactly. -/
theorem bnd_last (pool : List Pin) : bnd pool 32 = (readMinY pool : ℚ) +
    ((readMaxY pool : ℚ) - (readMinY pool : ℚ)) := by
  rw [bnd_eq pool 32 (by norm_num) (le_refl _)]
  push_cast
  ring

/-- Boundaries 1..32 are monotone when `min_y <= max_y`. -/
theorem bnd_mono (pool : List Pin) (h : readMinY pool ≤ readMaxY pool)
    {i j : ℕ} (h1 : 1 ≤ i) (h2 : i ≤ j) (h3 : j ≤ 32) :
    bnd pool i ≤ bnd pool j := by
  rw [bnd_eq pool i h1 (by omega), bnd_eq pool j (by omega) h3]
  have hd : (0:ℚ) ≤ (readMaxY pool : ℚ) - (readMinY pool : ℚ) := by
    have : ((readMinY pool : ℤ) : ℚ) ≤ ((readMaxY pool : ℤ) : ℚ) := by
      exact_mod_cast h
    linarith
  have hij : (i:ℚ) ≤ (j:ℚ) := by exact_mod_cast h2
  have hm := mul_le_mul_of_nonneg_right hij hd
  linarith

/-- Bucket membership rewritten through the boundary function. -/
theorem memBucket_iff (pool : List Pin) (i : ℕ) (p : Pin) :
    memBucket (mkIntervals pool) i p ↔
      (bnd pool i < (p.y : ℚ) ∧ (p.y : ℚ) ≤ bnd pool (i + 1)) :=
  Iff.rfl

/-- The assignment loop of the fast builder places a pin in bucket `i`
exactly when the membership test of line 157 holds. -/
theorem bucketPins_mem (ivs : List ℚ) (l : List Pin) (i : ℕ) (p : Pin) :
    p ∈ bucketPins ivs l i ↔ p ∈ l ∧ memBucket ivs i p := by
  simp [bucketPins, List.mem_filter, decide_eq_true_eq]

/-- Every pin of a non-empty pool with nonnegative coordinates belongs to
exactly one of the 32 buckets. -/
theorem bucket_unique (pool : List Pin) (hne : pool ≠ [])
    (hy : ∀ p ∈ pool, 0 ≤ p.y) :
    ∀ p ∈ pool, ∃! i : ℕ, i < 32 ∧ memBucket (mkIntervals pool) i p := by
  obtain ⟨hmin0, hminle⟩ := readMinY_spec pool hne hy
  have hmaxge := readMaxY_spec pool hne hy
  have hminmax : readMinY pool ≤ readMaxY pool := by
    obtain ⟨q, hq⟩ := List.exists_mem_of_ne_nil pool hne
    exact le_trans (hminle q hq) (hmaxge q hq)
  intro p hp
  have hge : (readMinY pool : ℚ) ≤ (p.y : ℚ) := by exact_mod_cast hminle p hp
  have hle : (p.y : ℚ) ≤ (readMaxY pool : ℚ) := by exact_mod_cast hmaxge p hp
  have hB0 : bnd pool 0 < (p.y : ℚ) := by
    rw [bnd_zero]
    linarith
  have hB32 : (p.y : ℚ) ≤ bnd pool 32 := by
    rw [bnd_last]
    linarith
  have hex : ∃ i : ℕ, (p.y : ℚ) ≤ bnd pool (i + 1) := ⟨31, hB32⟩
  have hfind31 : Nat.find hex ≤ 31 := Nat.find_le hB32
  have hup : (p.y : ℚ) ≤ bnd pool (Nat.find hex + 1) := Nat.find_spec hex
  have hlow : bnd pool (Nat.find hex) < (p.y : ℚ) := by
    rcases Nat.eq_zero_or_pos (Nat.find hex) with h0 | hpos
    · rw [h0]
      exact hB0
    · have hk : Nat.find hex = (Nat.find hex - 1) + 1 := by omega
      have hmin2 := Nat.find_min hex
        (show Nat.find hex - 1 < Nat.find hex by omega)
      rw [hk]
      push_neg at hmin2
      exact hmin2
  refine ⟨Nat.find hex, ⟨?_, hlow, hup⟩, ?_⟩
  · omega
  intro j hj
  obtain ⟨hj32, hjmem⟩ := hj
  have hjgt : bnd pool j < (p.y : ℚ) := hjmem.1
  have hjge : (p.y : ℚ) ≤ bnd pool (j + 1) := hjmem.2
  have hij : Nat.find hex ≤ j := Nat.find_le hjge
  by_contra hne2
  have hlt : Nat.find hex + 1 ≤ j := by omega
  have hchain : bnd pool (Nat.find hex + 1) ≤ bnd pool j :=
    bnd_mono pool hminmax (by omega) hlt (by omega)
  linarith

/-- C7: the constructor computes 33 boundaries by the formula
`min_y + i*(max_y-min_y)/32` and lowers the first one to `min_y - 1`; the
fast builder assigns a pin to bucket `i` iff
`boundary[i] < y <= boundary[i+1]`; consequently (for nonnegative
coordinates, where the `-1`-sentinel folds compute the true min and max)
every free pin of a non-empty pool lies in exactly one of the 32 buckets. -/
theorem C7_bucket_partition (pool : List Pin) (hne : pool ≠ [])
    (hy : ∀ p ∈ pool, 0 ≤ p.y) :
    (mkIntervals pool).length = 33 ∧
    (mkIntervals pool).getD 0 0 = (readMinY pool : ℚ) - 1 ∧
    (∀ i : ℕ, 1 ≤ i → i ≤ 32 → (mkIntervals pool).getD i 0 =
      (readMinY pool : ℚ) +
        (i : ℚ) * ((readMaxY pool : ℚ) - (readMinY pool : ℚ)) / 32) ∧
    (∀ (ivs : List ℚ) (l : List Pin) (i : ℕ) (p : Pin),
      p ∈ bucketPins ivs l i ↔ p ∈ l ∧ memBucket ivs i p) ∧
    (∀ p ∈ pool, ∃! i : ℕ, i < 32 ∧ memBucket (mkIntervals pool) i p) :=
  ⟨mkIntervals_length pool, bnd_zero pool, bnd_eq pool, bucketPins_mem,
   bucket_unique pool hne hy⟩

/-- Pin of the C7 witness pool sitting exactly at `min_y`. -/
def w7a : Pin := Pin.mk "fa" 0 0

/-- Second pin of the C7 witness pool. -/
def w7b : Pin := Pin.mk "fb" 0 5

/-- Witness for C7: the pin at `min_y` of a concrete two-pin pool lies in
exactly one bucket. -/
theorem C7_bucket_partition_witness :
    ∃! i : ℕ, i < 32 ∧ memBucket (mkIntervals [w7a, w7b]) i w7a :=
  (C7_bucket_partition [w7a, w7b] (by decide) (by decide)).2.2.2.2 w7a
    (List.mem_cons_self _ _)

/-! ### Claim C6 -/

/-- Sorting by y keeps the list length. -/
theorem sortByY_length (l : List Pin) : (sortByY l).length = l.length :=
  (List.perm_insertionSort _ l).length_eq

/-- Sorting by x keeps (non-)emptiness of a bucket. -/
theorem selSorted_ne_nil {ivs : List ℚ} {pool : List Pin} {i : ℕ}
    (h : bucketPins ivs pool i ≠ []) : selSorted ivs pool i ≠ [] := by
  intro hc
  apply h
  have := (List.perm_insertionSort (fun a b => obx a ≤ obx b)
    (bucketPins ivs pool i)).length_eq
  rw [selSorted, sortByX] at hc
  rw [hc] at this
  exact List.eq_nil_of_length_eq_zero this.symm

/-- With in-range driver indices and non-empty buckets, one chain of the
fast builder is built without an out-of-range access. -/
theorem fastChainEdges_isSome {plusS minusS : List Pin} {sel : ℕ → List Pin}
    {i : ℕ} (hp : i < plusS.length) (hm : i < minusS.length)
    (ha : sel i ≠ []) (hn : sel (16 + i) ≠ []) :
    ∃ es, fastChainEdges plusS minusS sel i = some es := by
  obtain ⟨a, as, hsa⟩ := List.exists_cons_of_ne_nil ha
  obtain ⟨b, bs, hsb⟩ := List.exists_cons_of_ne_nil hn
  rw [fastChainEdges, List.getElem?_eq_getElem hp, List.getElem?_eq_getElem hm,
    hsa, hsb]
  exact ⟨_, rfl⟩

/-- With 16 drivers on each side and all mentioned buckets non-empty, the
whole chain loop succeeds and produces one edge list per chain index. -/
theorem fastLoop_isSome {plusS minusS : List Pin} {sel : ℕ → List Pin} :
    ∀ L : List ℕ,
      (∀ i ∈ L, i < plusS.length ∧ i < minusS.length ∧ sel i ≠ [] ∧
        sel (16 + i) ≠ []) →
      ∃ cs, fastLoop plusS minusS sel L = some cs ∧ cs.length = L.length := by
  intro L
  induction L with
  | nil => exact fun _ => ⟨[], rfl, rfl⟩
  | cons i t ih =>
    intro hL
    obtain ⟨hp, hm, ha, hn⟩ := hL i (List.mem_cons_self _ _)
    obtain ⟨es, hes⟩ := fastChainEdges_isSome hp hm ha hn
    obtain ⟨cs, hcs, hlen⟩ := ih (fun j hj => hL j (List.mem_cons_of_mem _ hj))
    refine ⟨es :: cs, ?_, by simp [hlen]⟩
    simp only [fastLoop, Option.bind_eq_bind, hes, Option.some_bind, hcs]

/-- The statistics call succeeds on two or more samples. -/
theorem _statistics_isSome {l : List ℤ} (h : 2 ≤ l.length) :
    ∃ vm, _statistics l = some vm := by
  rw [_statistics, if_pos h]
  exact ⟨_, rfl⟩

/-- A chain whose input-side bucket is empty crashes on `act_sel[0]`. -/
theorem fastChainEdges_none_act {plusS minusS : List Pin} {sel : ℕ → List Pin}
    {i : ℕ} (h : sel i = []) : fastChainEdges plusS minusS sel i = none := by
  cases hdp : plusS[i]? <;> simp [fastChainEdges, hdp, h]

/-- A chain whose output-side bucket is empty crashes on `next_sel[-1]`. -/
theorem fastChainEdges_none_nxt {plusS minusS : List Pin} {sel : ℕ → List Pin}
    {i : ℕ} (h : sel (16 + i) = []) :
    fastChainEdges plusS minusS sel i = none := by
  cases hdp : plusS[i]? <;> cases hh : (sel i).head? <;>
    cases hl : (sel i).getLast? <;> simp [fastChainEdges, hdp, hh, hl, h]

/-- One crashing chain aborts the whole chain loop. -/
theorem fastLoop_none {plusS minusS : List Pin} {sel : ℕ → List Pin} :
    ∀ (L : List ℕ) (i : ℕ), i ∈ L →
      fastChainEdges plusS minusS sel i = none →
      fastLoop plusS minusS sel L = none := by
  intro L
  induction L with
  | nil =>
    intro i hi
    cases hi
  | cons a t ih =>
    intro i hi hnone
    rcases List.mem_cons.mp hi with h | h
    · subst h
      simp [fastLoop, hnone]
    · cases hca : fastChainEdges plusS minusS sel a
      · simp [fastLoop, hca]
      · simp [fastLoop, hca, ih i h hnone]

/-- C6: with 16 drivers on each side and every one of the 32 buckets
non-empty, every list access of the fast builder is in range and the
builder returns a result; conversely, whenever some bucket is empty the
fast builder fails with an out-of-range access (modelled as `none`) instead
of returning a result or a reported error. -/
theorem C6_fast_safety :
    (∀ c : Chip, c.driver_pins_plus.length = 16 →
      c.driver_pins_minus.length = 16 →
      (∀ i, i < 32 → bucketPins c.intervals c.not_connected i ≠ []) →
      (find_paths_fast_version c).isSome = true) ∧
    (∀ (c : Chip) (j : ℕ), j < 32 →
      bucketPins c.intervals c.not_connected j = [] →
      find_paths_fast_version c = none) := by
  constructor
  · intro c hp hm hbuck
    have hside : ∀ i ∈ List.range 16,
        i < (sortByY c.driver_pins_plus).length ∧
        i < (sortByY c.driver_pins_minus).length ∧
        selSorted c.intervals c.not_connected i ≠ [] ∧
        selSorted c.intervals c.not_connected (16 + i) ≠ [] := by
      intro i hi
      have hi16 : i < 16 := List.mem_range.mp hi
      refine ⟨?_, ?_, ?_, ?_⟩
      · rw [sortByY_length, hp]
        omega
      · rw [sortByY_length, hm]
        omega
      · exact selSorted_ne_nil (hbuck i (by omega))
      · exact selSorted_ne_nil (hbuck (16 + i) (by omega))
    obtain ⟨cs, hcs, hlen⟩ :=
      @fastLoop_isSome (sortByY c.driver_pins_plus) (sortByY c.driver_pins_minus)
        (selSorted c.intervals c.not_connected) (List.range 16) hside
    have hlen2 : 2 ≤ (cs.map (fun es => (es.map Edge.dist).sum)).length := by
      rw [List.length_map, hlen, List.length_range]
      omega
    obtain ⟨⟨v, m⟩, hvm⟩ := @_statistics_isSome _ hlen2
    rw [find_paths_fast_version]
    simp only [Option.bind_eq_bind, hcs, Option.some_bind, hvm]
    rfl
  · intro c j hj32 hempty
    have hloop : fastLoop (sortByY c.driver_pins_plus)
        (sortByY c.driver_pins_minus)
        (selSorted c.intervals c.not_connected) (List.range 16) = none := by
      rcases Nat.lt_or_ge j 16 with hj | hj
      · refine fastLoop_none (List.range 16) j (List.mem_range.mpr hj) ?_
        apply fastChainEdges_none_act
        rw [selSorted, hempty]
        rfl
      · refine fastLoop_none (List.range 16) (j - 16)
          (List.mem_range.mpr (by omega)) ?_
        apply fastChainEdges_none_nxt
        have h16 : 16 + (j - 16) = j := by omega
        rw [h16, selSorted, hempty]
        rfl
    rw [find_paths_fast_version]
    simp only [Option.bind_eq_bind, hloop, Option.none_bind]

/-- Witness for C6: the concrete chip satisfies the bucket precondition and
the fast builder returns; a two-pin pool leaves bucket 1 empty and the fast
builder crashes (`none`). -/
theorem C6_fast_safety_witness :
    (find_paths_fast_version ccChip).isSome = true ∧
    find_paths_fast_version (mkChip [] [] [w7a, w7b]) = none :=
  ⟨C6_fast_safety.1 ccChip rfl rfl
      (of_decide_eq_true (by with_unfolding_all rfl)),
   C6_fast_safety.2 (mkChip [] [] [w7a, w7b]) 1 (by omega)
      (by with_unfolding_all rfl)⟩

/-! ### Claim C3, slow builder: counting invariant -/

/-- Counts of `conn_in` pins distribute over graph concatenation. -/
theorem countIn_append (g1 g2 : List Edge) (q : Pin) :
    countIn (g1 ++ g2) q = countIn g1 q + countIn g2 q := by
  simp [countIn, List.count_append]

/-- Counts of `conn_out` pins distribute over graph concatenation. -/
theorem countOut_append (g1 g2 : List Edge) (q : Pin) :
    countOut (g1 ++ g2) q = countOut g1 q + countOut g2 q := by
  simp [countOut, List.count_append]

/-- The `conn_in` count of a one-edge graph. -/
theorem countIn_singleton (a b : Pin) (i : ℕ) (q : Pin) :
    countIn [Edge.mk a b i] q = if a = q then 1 else 0 := by
  by_cases h : a = q
  · simp [countIn, h]
  · simp only [countIn, List.map_cons, List.map_nil, if_neg h]
    exact List.count_eq_zero.mpr (fun hq => h (List.mem_singleton.mp hq).symm)

/-- The `conn_out` count of a one-edge graph. -/
theorem countOut_singleton (a b : Pin) (i : ℕ) (q : Pin) :
    countOut [Edge.mk a b i] q = if b = q then 1 else 0 := by
  by_cases h : b = q
  · simp [countOut, h]
  · simp only [countOut, List.map_cons, List.map_nil, if_neg h]
    exact List.count_eq_zero.mpr (fun hq => h (List.mem_singleton.mp hq).symm)

/-- Removing an edge removes one occurrence of its `conn_in` pin. -/
theorem countIn_erase {g : List Edge} {e : Edge} (he : e ∈ g) (q : Pin) :
    countIn g q = (if e.conn_in = q then 1 else 0) + countIn (g.erase e) q := by
  have hperm : (g.map Edge.conn_in).Perm ((e :: g.erase e).map Edge.conn_in) :=
    (List.perm_cons_erase he).map _
  have hc := hperm.count_eq q
  simp only [List.map_cons] at hc
  rw [countIn, hc, countIn]
  by_cases h : e.conn_in = q <;> simp [h, List.count_cons] <;> omega

/-- Removing an edge removes one occurrence of its `conn_out` pin. -/
theorem countOut_erase {g : List Edge} {e : Edge} (he : e ∈ g) (q : Pin) :
    countOut g q = (if e.conn_out = q then 1 else 0) + countOut (g.erase e) q := by
  have hperm : (g.map Edge.conn_out).Perm ((e :: g.erase e).map Edge.conn_out) :=
    (List.perm_cons_erase he).map _
  have hc := hperm.count_eq q
  simp only [List.map_cons] at hc
  rw [countOut, hc, countOut]
  by_cases h : e.conn_out = q <;> simp [h, List.count_cons] <;> omega

/-- Replacing edge `e` by the two edges through pin `n` adds exactly one
`conn_in` occurrence of `n` and changes no other `conn_in` count. -/
theorem countIn_slowStep {g : List Edge} {e : Edge} (he : e ∈ g) (n q : Pin) :
    countIn (g.erase e ++ [Edge.mk e.conn_in n e.i] ++ [Edge.mk n e.conn_out e.i]) q =
      countIn g q + (if n = q then 1 else 0) := by
  rw [countIn_append, countIn_append, countIn_singleton, countIn_singleton,
    countIn_erase he q]
  by_cases hn : n = q <;> by_cases hc : e.conn_in = q <;> simp [hn, hc] <;> omega

/-- Replacing edge `e` by the two edges through pin `n` adds exactly one
`conn_out` occurrence of `n` and changes no other `conn_out` count. -/
theorem countOut_slowStep {g : List Edge} {e : Edge} (he : e ∈ g) (n q : Pin) :
    countOut (g.erase e ++ [Edge.mk e.conn_in n e.i] ++ [Edge.mk n e.conn_out e.i]) q =
      countOut g q + (if n = q then 1 else 0) := by
  rw [countOut_append, countOut_append, countOut_singleton, countOut_singleton,
    countOut_erase he q]
  by_cases hn : n = q <;> by_cases hc : e.conn_out = q <;> simp [hn, hc] <;> omega

/-- Invariant of the slow builder: pins still in the pool touch no edge,
placed free pins are interior (one in-edge, one out-edge), input drivers
are sources of exactly one edge and output drivers sinks of exactly one. -/
def coverInv (plus minus origPool : List Pin) (g : List Edge)
    (pool : List Pin) : Prop :=
  (∀ p ∈ origPool, (p ∈ pool → countIn g p = 0 ∧ countOut g p = 0) ∧
    (p ∉ pool → countIn g p = 1 ∧ countOut g p = 1)) ∧
  (∀ d ∈ plus, countIn g d = 1 ∧ countOut g d = 0) ∧
  (∀ d ∈ minus, countOut g d = 1 ∧ countIn g d = 0) ∧
  pool.Nodup ∧ (∀ p ∈ pool, p ∈ origPool)

/-- One insertion step preserves the coverage invariant. -/
theorem slowStep_coverInv {plus minus origPool : List Pin}
    (hND : (plus ++ (minus ++ origPool)).Nodup)
    {g : List Edge} {pool : List Pin} {gd : ℤ} {pd : List ℤ}
    {g2 : List Edge} {pool2 : List Pin} {gd2 : ℤ} {pd2 : List ℤ}
    (h : slowStep g pool gd pd = some (g2, pool2, gd2, pd2))
    (hinv : coverInv plus minus origPool g pool) :
    coverInv plus minus origPool g2 pool2 := by
  obtain ⟨n, e, hsel, hg2, hpool2, _⟩ := slowStep_eq_some h
  obtain ⟨hnpool, hme, heg⟩ := slowSelect_mem hsel
  obtain ⟨hfree, hplus, hminus, hnd, hsub⟩ := hinv
  have hnorig : n ∈ origPool := hsub n hnpool
  obtain ⟨hndp, hrest, hdisj1⟩ := List.nodup_append.mp hND
  obtain ⟨hndm, hndpool, hdisj2⟩ := List.nodup_append.mp hrest
  subst hg2
  subst hpool2
  refine ⟨?_, ?_, ?_, hnd.erase n, fun p hp => hsub p (List.mem_of_mem_erase hp)⟩
  · intro p hporig
    constructor
    · intro hp2
      obtain ⟨hpn, hpe⟩ := (List.Nodup.mem_erase_iff hnd).mp hp2
      have h0 := (hfree p hporig).1 hpe
      rw [countIn_slowStep heg n p, countOut_slowStep heg n p,
        if_neg (fun hq => hpn hq.symm)]
      omega
    · intro hp2
      by_cases hpn : p = n
      · subst hpn
        have h0 := (hfree p hporig).1 hnpool
        rw [countIn_slowStep heg p p, countOut_slowStep heg p p, if_pos rfl]
        omega
      · have hpnot : p ∉ pool := by
          intro hc
          exact hp2 ((List.Nodup.mem_erase_iff hnd).mpr ⟨hpn, hc⟩)
        have h1 := (hfree p hporig).2 hpnot
        rw [countIn_slowStep heg n p, countOut_slowStep heg n p,
          if_neg (fun hq => hpn hq.symm)]
        omega
  · intro d hd
    have hdn : ¬ (n = d) := by
      intro hq
      subst hq
      exact hdisj1 hd (List.mem_append_right _ hnorig)
    have h1 := hplus d hd
    rw [countIn_slowStep heg n d, countOut_slowStep heg n d, if_neg hdn]
    omega
  · intro d hd
    have hdn : ¬ (n = d) := by
      intro hq
      subst hq
      exact hdisj2 hd hnorig
    have h1 := hminus d hd
    rw [countIn_slowStep heg n d, countOut_slowStep heg n d, if_neg hdn]
    omega

/-- The sources of the initial degenerate chains are exactly the input
drivers, and the sinks exactly the output drivers. -/
theorem slowInit_maps {plus minus : List Pin} (hlen : plus.length = minus.length) :
    (slowInitEdges plus minus).map Edge.conn_in = plus ∧
    (slowInitEdges plus minus).map Edge.conn_out = minus := by
  constructor
  · rw [slowInitEdges, List.map_map]
    have h1 : (Edge.conn_in ∘ fun x : ℕ × Pin × Pin => Edge.mk x.2.1 x.2.2 x.1) =
        (Prod.fst ∘ Prod.snd) := rfl
    rw [h1, ← List.map_map, List.enum_map_snd, List.map_fst_zip _ _ (le_of_eq hlen)]
  · rw [slowInitEdges, List.map_map]
    have h1 : (Edge.conn_out ∘ fun x : ℕ × Pin × Pin => Edge.mk x.2.1 x.2.2 x.1) =
        (Prod.snd ∘ Prod.snd) := rfl
    rw [h1, ← List.map_map, List.enum_map_snd, List.map_snd_zip _ _ (le_of_eq hlen.symm)]

/-- The coverage invariant holds after step 1 of the slow builder. -/
theorem coverInv_init {plus minus pool : List Pin}
    (hlen : plus.length = minus.length)
    (hND : (plus ++ (minus ++ pool)).Nodup) :
    coverInv plus minus pool (slowInitEdges plus minus) pool := by
  obtain ⟨hin, hout⟩ := slowInit_maps hlen
  obtain ⟨hndp, hrest, hdisj1⟩ := List.nodup_append.mp hND
  obtain ⟨hndm, hndpool, hdisj2⟩ := List.nodup_append.mp hrest
  refine ⟨?_, ?_, ?_, hndpool, fun p hp => hp⟩
  · intro p hporig
    refine ⟨fun _ => ⟨?_, ?_⟩, fun hnot => absurd hporig hnot⟩
    · rw [countIn, hin]
      exact List.count_eq_zero.mpr
        (fun hc => hdisj1 hc (List.mem_append_right _ hporig))
    · rw [countOut, hout]
      exact List.count_eq_zero.mpr (fun hc => hdisj2 hc hporig)
  · intro d hd
    constructor
    · rw [countIn, hin]
      exact List.count_eq_one_of_mem hndp hd
    · rw [countOut, hout]
      exact List.count_eq_zero.mpr
        (fun hc => hdisj1 hd (List.mem_append_left _ hc))
  · intro d hd
    constructor
    · rw [countOut, hout]
      exact List.count_eq_one_of_mem hndm hd
    · rw [countIn, hin]
      exact List.count_eq_zero.mpr
        (fun hc => hdisj1 hc (List.mem_append_left _ hd))

/-- The insertion loop preserves the coverage invariant. -/
theorem slowLoop_coverInv {plus minus origPool : List Pin}
    (hND : (plus ++ (minus ++ origPool)).Nodup) :
    ∀ (fuel : ℕ) (g : List Edge) (pool : List Pin) (gd : ℤ) (pd : List ℤ) r,
      slowLoop fuel g pool gd pd = some r →
      coverInv plus minus origPool g pool →
      coverInv plus minus origPool r.1 r.2.1 := by
  intro fuel
  induction fuel with
  | zero =>
    intro g pool gd pd r h hinv
    simp only [slowLoop] at h
    split at h
    · cases h
      exact hinv
    · cases h
  | succ f ih =>
    intro g pool gd pd r h hinv
    simp only [slowLoop] at h
    split at h
    · cases h
      exact hinv
    · simp only [Option.bind_eq_bind, Option.bind_eq_some] at h
      obtain ⟨⟨g2, pool2, gd2, pd2⟩, h1, h2⟩ := h
      exact ih _ _ _ _ _ h2 (slowStep_coverInv hND h1 hinv)

/-- Coverage for the slow builder: on any successful run, every free pin is
interior of exactly one chain and every driver an endpoint of exactly one
edge. -/
theorem slow_coverage {plus minus pool : List Pin} {r : Chip × ℤ × ℚ × ℚ}
    (hlen : plus.length = minus.length)
    (hND : (plus ++ (minus ++ pool)).Nodup)
    (h : find_paths_slow_version (mkChip plus minus pool) = some r) :
    (∀ p ∈ pool, countIn r.1.graph p = 1 ∧ countOut r.1.graph p = 1) ∧
    (∀ d ∈ plus, countIn r.1.graph d = 1 ∧ countOut r.1.graph d = 0) ∧
    (∀ d ∈ minus, countOut r.1.graph d = 1 ∧ countIn r.1.graph d = 0) := by
  obtain ⟨_, _, g2, gd2, pd2, v, m, hloop, _, hr⟩ := find_paths_slow_eq_some h
  simp only [mkChip, List.nil_append] at hloop
  have hinv := slowLoop_coverInv hND _ _ _ _ _ _ hloop (coverInv_init hlen hND)
  obtain ⟨hfree, hplus, hminus, _, _⟩ := hinv
  rw [hr]
  refine ⟨?_, fun d hd => hplus d hd, fun d hd => hminus d hd⟩
  intro p hp
  exact (hfree p hp).2 (List.not_mem_nil p)

/-! ### Claim C3, fast builder: counting the produced chains -/

/-- First components of the consecutive-pairs zip: all but the last pin. -/
theorem zipTail_map_fst : ∀ l : List Pin, (l.zip l.tail).map Prod.fst = l.dropLast := by
  intro l
  induction l with
  | nil => rfl
  | cons a t ih =>
    cases t with
    | nil => rfl
    | cons b t2 =>
      simp only [List.tail_cons] at *
      rw [show (a :: b :: t2).zip (b :: t2) = (a, b) :: ((b :: t2).zip t2) from rfl]
      rw [List.map_cons, ih]
      rfl

/-- Second components of the consecutive-pairs zip: all but the first pin. -/
theorem zipTail_map_snd (l : List Pin) : (l.zip l.tail).map Prod.snd = l.tail :=
  List.map_snd_zip _ _ (by cases l <;> simp)

/-- Sources of the ascending intra-bucket edges. -/
theorem ascEdges_map_in (l : List Pin) :
    (ascEdges l).map Edge.conn_in = l.dropLast := by
  rw [ascEdges, List.map_map]
  rw [show (Edge.conn_in ∘ fun q : Pin × Pin => _add_edge q.1 q.2) = Prod.fst from rfl]
  exact zipTail_map_fst l

/-- Sinks of the ascending intra-bucket edges. -/
theorem ascEdges_map_out (l : List Pin) :
    (ascEdges l).map Edge.conn_out = l.tail := by
  rw [ascEdges, List.map_map]
  rw [show (Edge.conn_out ∘ fun q : Pin × Pin => _add_edge q.1 q.2) = Prod.snd from rfl]
  exact zipTail_map_snd l

/-- Sources of the reversed intra-bucket edges. -/
theorem descEdges_map_in (l : List Pin) :
    (descEdges l).map Edge.conn_in = l.tail := by
  rw [descEdges, List.map_map]
  rw [show (Edge.conn_in ∘ fun q : Pin × Pin => _add_edge q.2 q.1) = Prod.snd from rfl]
  exact zipTail_map_snd l

/-- Sinks of the reversed intra-bucket edges. -/
theorem descEdges_map_out (l : List Pin) :
    (descEdges l).map Edge.conn_out = l.dropLast := by
  rw [descEdges, List.map_map]
  rw [show (Edge.conn_out ∘ fun q : Pin × Pin => _add_edge q.2 q.1) = Prod.fst from rfl]
  exact zipTail_map_fst l

/-- Per-chain pin counts of the fast builder: the chain of index `i` uses
driver `i` once as source (resp. sink) and every pin of its two buckets
once as source and once as sink. -/
theorem fastChainEdges_counts {plusS minusS : List Pin} {sel : ℕ → List Pin}
    {i : ℕ} {es : List Edge} (h : fastChainEdges plusS minusS sel i = some es)
    (q : Pin) :
    (es.map Edge.conn_in).count q =
      (if plusS[i]? = some q then 1 else 0) +
        ((sel i).count q + (sel (16 + i)).count q) ∧
    (es.map Edge.conn_out).count q =
      (if minusS[i]? = some q then 1 else 0) +
        ((sel i).count q + (sel (16 + i)).count q) := by
  simp only [fastChainEdges, Option.bind_eq_bind, Option.bind_eq_some] at h
  obtain ⟨dp, hdp, h⟩ := h
  obtain ⟨a0, ha0, h⟩ := h
  obtain ⟨alast, hal, h⟩ := h
  obtain ⟨nlast, hnl, h⟩ := h
  obtain ⟨n0, hn0, h⟩ := h
  obtain ⟨dm, hdm, h⟩ := h
  cases h
  have hAne : sel i ≠ [] := by
    intro hc
    rw [hc] at ha0
    exact Option.noConfusion ha0
  have hBne : sel (16 + i) ≠ [] := by
    intro hc
    rw [hc] at hn0
    exact Option.noConfusion hn0
  have hA : (sel i).dropLast ++ [alast] = sel i := by
    rw [List.getLast?_eq_getLast _ hAne] at hal
    cases hal
    exact List.dropLast_append_getLast hAne
  have hA2 : a0 :: (sel i).tail = sel i := by
    obtain ⟨x, xs, hxs⟩ := List.exists_cons_of_ne_nil hAne
    rw [hxs] at ha0
    cases ha0
    rw [hxs, List.tail_cons]
  have hB : n0 :: (sel (16 + i)).tail = sel (16 + i) := by
    obtain ⟨x, xs, hxs⟩ := List.exists_cons_of_ne_nil hBne
    rw [hxs] at hn0
    cases hn0
    rw [hxs, List.tail_cons]
  have hB2 : (sel (16 + i)).dropLast ++ [nlast] = sel (16 + i) := by
    rw [List.getLast?_eq_getLast _ hBne] at hnl
    cases hnl
    exact List.dropLast_append_getLast hBne
  have hAc1 : (sel i).count q = ((sel i).dropLast).count q + [alast].count q := by
    conv_lhs => rw [← hA]
    rw [List.count_append]
  have hAc2 : (sel i).count q = [a0].count q + ((sel i).tail).count q := by
    conv_lhs => rw [← hA2]
    rw [show (a0 :: (sel i).tail) = [a0] ++ (sel i).tail from rfl, List.count_append]
  have hBc1 : (sel (16 + i)).count q = [n0].count q + ((sel (16 + i)).tail).count q := by
    conv_lhs => rw [← hB]
    rw [show (n0 :: (sel (16 + i)).tail) = [n0] ++ (sel (16 + i)).tail from rfl,
      List.count_append]
  have hBc2 : (sel (16 + i)).count q =
      ((sel (16 + i)).dropLast).count q + [nlast].count q := by
    conv_lhs => rw [← hB2]
    rw [List.count_append]
  have hdpc : (if plusS[i]? = some q then 1 else 0) = [dp].count q := by
    rw [hdp]
    by_cases hq : dp = q
    · simp [hq]
    · simp only [Option.some.injEq, if_neg hq]
      exact (List.count_eq_zero.mpr
        (fun hc => hq (List.mem_singleton.mp hc).symm)).symm
  have hdmc : (if minusS[i]? = some q then 1 else 0) = [dm].count q := by
    rw [hdm]
    by_cases hq : dm = q
    · simp [hq]
    · simp only [Option.some.injEq, if_neg hq]
      exact (List.count_eq_zero.mpr
        (fun hc => hq (List.mem_singleton.mp hc).symm)).symm
  constructor
  · simp only [List.map_append, List.map_cons, List.map_nil, _add_edge,
      ascEdges_map_in, descEdges_map_in, List.count_append]
    rw [hdpc]
    omega
  · simp only [List.map_append, List.map_cons, List.map_nil, _add_edge,
      ascEdges_map_out, descEdges_map_out, List.count_append]
    rw [hdmc]
    omega

/-- Pin counts of the whole chain loop, summed over the chain indices. -/
theorem fastLoop_counts {plusS minusS : List Pin} {sel : ℕ → List Pin} :
    ∀ (L : List ℕ) (cs : List (List Edge)),
      fastLoop plusS minusS sel L = some cs → ∀ q : Pin,
      countIn cs.flatten q =
        (L.map (fun i => (if plusS[i]? = some q then 1 else 0) +
          ((sel i).count q + (sel (16 + i)).count q))).sum ∧
      countOut cs.flatten q =
        (L.map (fun i => (if minusS[i]? = some q then 1 else 0) +
          ((sel i).count q + (sel (16 + i)).count q))).sum := by
  intro L
  induction L with
  | nil =>
    intro cs h q
    cases h
    simp [countIn, countOut]
  | cons i t ih =>
    intro cs h q
    simp only [fastLoop, Option.bind_eq_bind, Option.bind_eq_some] at h
    obtain ⟨es, h1, h⟩ := h
    obtain ⟨tl, h2, h⟩ := h
    cases h
    obtain ⟨hci, hco⟩ := fastChainEdges_counts h1 q
    obtain ⟨hti, hto⟩ := ih tl h2 q
    constructor
    · rw [show (es :: tl).flatten = es ++ tl.flatten from rfl, countIn_append,
        List.map_cons, List.sum_cons, hti]
      rw [countIn, hci]
    · rw [show (es :: tl).flatten = es ++ tl.flatten from rfl, countOut_append,
        List.map_cons, List.sum_cons, hto]
      rw [countOut, hco]

/-- Sums of pointwise sums split. -/
theorem sum_map_add {α : Type} (L : List α) (f g : α → ℕ) :
    (L.map (fun x => f x + g x)).sum = (L.map f).sum + (L.map g).sum := by
  induction L with
  | nil => rfl
  | cons a t ih =>
    simp only [List.map_cons, List.sum_cons, ih]
    omega

/-- Summing the indicator of the i-th entry over all indices counts the
occurrences of a pin in a list. -/
theorem count_eq_sum_getElem (l : List Pin) (q : Pin) :
    ((List.range l.length).map (fun i => if l[i]? = some q then 1 else 0)).sum =
      l.count q := by
  induction l with
  | nil => rfl
  | cons a t ih =>
    rw [List.length_cons, List.range_succ_eq_map, List.map_cons, List.map_map,
      List.sum_cons]
    have hfun : ((fun i => if (a :: t)[i]? = some q then 1 else 0) ∘ Nat.succ) =
        (fun i => if t[i]? = some q then 1 else 0) := by
      funext j
      simp
    rw [hfun, ih]
    by_cases hq : a = q <;> simp [hq, List.count_cons] <;> omega

/-- Summing an indicator with a unique satisfying index below `n` yields the
indicated value. -/
theorem sum_ite_unique (x : ℕ) (P : ℕ → Prop) [DecidablePred P] :
    ∀ n : ℕ, (∃! i, i < n ∧ P i) →
      ((List.range n).map (fun i => if P i then x else 0)).sum = x := by
  intro n
  induction n with
  | zero =>
    intro h
    obtain ⟨i, ⟨hi, _⟩, _⟩ := h
    exact absurd hi (Nat.not_lt_zero i)
  | succ m ih =>
    intro h
    obtain ⟨i0, ⟨hi0, hP0⟩, huniq⟩ := h
    rw [List.range_succ, List.map_append, List.sum_append]
    by_cases hm : P m
    · have hzero : ∀ y ∈ (List.range m).map (fun i => if P i then x else 0),
          y = 0 := by
        intro y hy
        obtain ⟨i, hi, rfl⟩ := List.mem_map.mp hy
        have him : i < m := List.mem_range.mp hi
        rw [if_neg]
        intro hPi
        have h1 := huniq i ⟨by omega, hPi⟩
        have h2 := huniq m ⟨Nat.lt_succ_self m, hm⟩
        omega
      rw [List.sum_eq_zero hzero]
      simp [hm]
    · have hi0m : i0 < m := by
        rcases Nat.lt_succ_iff_lt_or_eq.mp hi0 with h | h
        · exact h
        · subst h
          exact absurd hP0 hm
      rw [ih ⟨i0, ⟨hi0m, hP0⟩, fun j hj => huniq j ⟨by omega, hj.2⟩⟩]
      simp [hm]

/-- Count of a pin in a sorted bucket: the pool count if the pin passes the
membership test of that bucket, zero otherwise. -/
theorem selSorted_count (ivs : List ℚ) (pool : List Pin) (i : ℕ) (q : Pin) :
    (selSorted ivs pool i).count q =
      if memBucket ivs i q then pool.count q else 0 := by
  rw [selSorted, sortByX,
    (List.perm_insertionSort (fun a b => obx a ≤ obx b) (bucketPins ivs pool i)).count_eq]
  by_cases hm : memBucket ivs i q
  · rw [if_pos hm, bucketPins]
    exact List.count_filter (by simp [hm])
  · rw [if_neg hm, bucketPins]
    refine List.count_eq_zero.mpr ?_
    intro hc
    exact hm (of_decide_eq_true (List.mem_filter.mp hc).2)

/-- Coverage for the fast builder: with 16 drivers per side, all pins
distinct, and nonnegative coordinates, any successful run makes every free
pin interior of exactly one chain and every driver an endpoint of exactly
one edge. -/
theorem fast_coverage {plus minus pool : List Pin} {r : Chip × ℤ × ℚ × ℚ}
    (hp16 : plus.length = 16) (hm16 : minus.length = 16)
    (hND : (plus ++ (minus ++ pool)).Nodup)
    (hy : ∀ p ∈ pool, 0 ≤ p.y)
    (h : find_paths_fast_version (mkChip plus minus pool) = some r) :
    (∀ p ∈ pool, countIn r.1.graph p = 1 ∧ countOut r.1.graph p = 1) ∧
    (∀ d ∈ plus, countIn r.1.graph d = 1 ∧ countOut r.1.graph d = 0) ∧
    (∀ d ∈ minus, countOut r.1.graph d = 1 ∧ countIn r.1.graph d = 0) := by
  obtain ⟨chains, v, m, hloop, _, hr⟩ := find_paths_fast_eq_some h
  simp only [mkChip] at hloop
  have hG : r.1.graph = chains.flatten := by
    rw [hr]
    simp [mkChip]
  obtain ⟨hndp, hrest, hdisj1⟩ := List.nodup_append.mp hND
  obtain ⟨hndm, hndpool, hdisj2⟩ := List.nodup_append.mp hrest
  have hplusc : ∀ q : Pin, (sortByY plus).count q = plus.count q :=
    fun q => (List.perm_insertionSort _ plus).count_eq q
  have hminusc : ∀ q : Pin, (sortByY minus).count q = minus.count q :=
    fun q => (List.perm_insertionSort _ minus).count_eq q
  have hsum : ∀ q : Pin,
      countIn chains.flatten q = plus.count q + ((List.range 32).map
        (fun i => if memBucket (mkIntervals pool) i q then pool.count q else 0)).sum ∧
      countOut chains.flatten q = minus.count q + ((List.range 32).map
        (fun i => if memBucket (mkIntervals pool) i q then pool.count q else 0)).sum := by
    intro q
    obtain ⟨hci, hco⟩ := fastLoop_counts (List.range 16) chains hloop q
    have hsplit : ((List.range 16).map (fun i =>
        (selSorted (mkIntervals pool) pool i).count q +
        (selSorted (mkIntervals pool) pool (16 + i)).count q)).sum =
        ((List.range 32).map (fun i =>
          if memBucket (mkIntervals pool) i q then pool.count q else 0)).sum := by
      rw [sum_map_add]
      rw [show (32:ℕ) = 16 + 16 from rfl, List.range_add, List.map_append,
        List.sum_append, List.map_map]
      simp only [selSorted_count, Function.comp_def]
    have hplusSum : ((List.range 16).map
        (fun i => if (sortByY plus)[i]? = some q then 1 else 0)).sum =
        plus.count q := by
      have hlen : (sortByY plus).length = 16 := by rw [sortByY_length, hp16]
      have hc := count_eq_sum_getElem (sortByY plus) q
      rw [hlen] at hc
      rw [hc, hplusc]
    have hminusSum : ((List.range 16).map
        (fun i => if (sortByY minus)[i]? = some q then 1 else 0)).sum =
        minus.count q := by
      have hlen : (sortByY minus).length = 16 := by rw [sortByY_length, hm16]
      have hc := count_eq_sum_getElem (sortByY minus) q
      rw [hlen] at hc
      rw [hc, hminusc]
    constructor
    · rw [hci, sum_map_add, hplusSum, hsplit]
    · rw [hco, sum_map_add, hminusSum, hsplit]
  refine ⟨?_, ?_, ?_⟩
  · intro p hp
    have hpoolne : pool ≠ [] := List.ne_nil_of_mem hp
    have hEU := bucket_unique pool hpoolne hy p hp
    have hcount1 : pool.count p = 1 := List.count_eq_one_of_mem hndpool hp
    have hplus0 : plus.count p = 0 := List.count_eq_zero.mpr
      (fun hc => hdisj1 hc (List.mem_append_right _ hp))
    have hminus0 : minus.count p = 0 := List.count_eq_zero.mpr
      (fun hc => hdisj2 hc hp)
    obtain ⟨h1, h2⟩ := hsum p
    simp only [hcount1] at h1 h2
    have hsum1 := sum_ite_unique 1 (fun i => memBucket (mkIntervals pool) i p) 32 hEU
    rw [hG, h1, h2, hplus0, hminus0, hsum1]
    omega
  · intro d hd
    have hdpool0 : pool.count d = 0 := List.count_eq_zero.mpr
      (fun hc => hdisj1 hd (List.mem_append_right _ hc))
    have hminus0 : minus.count d = 0 := List.count_eq_zero.mpr
      (fun hc => hdisj1 hd (List.mem_append_left _ hc))
    have hplus1 : plus.count d = 1 := List.count_eq_one_of_mem hndp hd
    obtain ⟨h1, h2⟩ := hsum d
    simp only [hdpool0, ite_self] at h1 h2
    have hzero : ((List.range 32).map (fun _ : ℕ => (0:ℕ))).sum = 0 := by simp
    rw [hG, h1, h2, hplus1, hminus0, hzero]
    omega
  · intro d hd
    have hdpool0 : pool.count d = 0 := List.count_eq_zero.mpr
      (fun hc => hdisj2 hd hc)
    have hplus0 : plus.count d = 0 := List.count_eq_zero.mpr
      (fun hc => hdisj1 hc (List.mem_append_left _ hd))
    have hminus1 : minus.count d = 1 := List.count_eq_one_of_mem hndm hd
    obtain ⟨h1, h2⟩ := hsum d
    simp only [hdpool0, ite_self] at h1 h2
    have hzero : ((List.range 32).map (fun _ : ℕ => (0:ℕ))).sum = 0 := by simp
    rw [hG, h1, h2, hplus0, hminus1, hzero]
    omega

/-- C3: after either builder runs to completion on a chip with distinct
pins (fast: 16 drivers per side, nonnegative coordinates; slow: equally
many input and output drivers), every initially-free pin appears in exactly
one edge as `conn_in` and exactly one edge as `conn_out`, every input
driver in exactly one edge and only as `conn_in`, and every output driver
in exactly one edge and only as `conn_out`. -/
theorem C3_coverage :
    (∀ (plus minus pool : List Pin) (r : Chip × ℤ × ℚ × ℚ),
      plus.length = 16 → minus.length = 16 →
      (plus ++ (minus ++ pool)).Nodup → (∀ p ∈ pool, 0 ≤ p.y) →
      find_paths_fast_version (mkChip plus minus pool) = some r →
      (∀ p ∈ pool, countIn r.1.graph p = 1 ∧ countOut r.1.graph p = 1) ∧
      (∀ d ∈ plus, countIn r.1.graph d = 1 ∧ countOut r.1.graph d = 0) ∧
      (∀ d ∈ minus, countOut r.1.graph d = 1 ∧ countIn r.1.graph d = 0)) ∧
    (∀ (plus minus pool : List Pin) (r : Chip × ℤ × ℚ × ℚ),
      plus.length = minus.length →
      (plus ++ (minus ++ pool)).Nodup →
      find_paths_slow_version (mkChip plus minus pool) = some r →
      (∀ p ∈ pool, countIn r.1.graph p = 1 ∧ countOut r.1.graph p = 1) ∧
      (∀ d ∈ plus, countIn r.1.graph d = 1 ∧ countOut r.1.graph d = 0) ∧
      (∀ d ∈ minus, countOut r.1.graph d = 1 ∧ countIn r.1.graph d = 0)) :=
  ⟨fun _ _ _ _ hp hm hnd hy h => fast_coverage hp hm hnd hy h,
   fun _ _ _ _ hlen hnd h => slow_coverage hlen hnd h⟩

/-- Witness for C3: coverage at concrete runs of both builders (the free
pin at `(0,0)` is interior of one chain in both results, the input driver
at `(100,15)` is a source exactly once in the fast result). -/
theorem C3_coverage_witness :
    (countIn ccFastR.1.graph (Pin.mk "f" 0 0) = 1 ∧
     countOut ccFastR.1.graph (Pin.mk "f" 0 0) = 1) ∧
    (countIn ccSlowR.1.graph (Pin.mk "f" 0 0) = 1 ∧
     countOut ccSlowR.1.graph (Pin.mk "f" 0 0) = 1) ∧
    (countIn ccFastR.1.graph (Pin.mk "p" 100 15) = 1 ∧
     countOut ccFastR.1.graph (Pin.mk "p" 100 15) = 0) :=
  ⟨(C3_coverage.1 ccPlus ccMinus ccPool ccFastR rfl rfl (by decide) (by decide)
      ccFast_eq).1 _ (by decide),
   (C3_coverage.2 ccPlus ccMinus ccPool ccSlowR rfl (by decide) ccSlow_eq).1 _
      (by decide),
   (C3_coverage.1 ccPlus ccMinus ccPool ccFastR rfl rfl (by decide) (by decide)
      ccFast_eq).2.1 _ (by decide)⟩

/-! ### Sentinel counterexamples for claims C7 and C3: a free pin with a
negative y-coordinate resets the `-1`-sentinel folds of `_read`
(chip_class.py lines 92-95), so the computed `_min_y`/`_max_y` are wrong
and pins can fall in no bucket at all. -/

/-- Free pin at y = 5 of the sentinel pool; lands in no bucket. -/
def c7a : Pin := Pin.mk "sa" 0 5

/-- Free pin at y = -1; it resets the running minimum to the sentinel. -/
def c7b : Pin := Pin.mk "sb" 0 (-1)

/-- Free pin at y = 7, read after the reset, so `_min_y` ends up as 7. -/
def c7c : Pin := Pin.mk "sc" 0 7

/-- Pool with y-values 5, -1, 7 in read order. -/
def c7pool : List Pin := [c7a, c7b, c7c]

/-- C7 counterexample: on the non-empty pool with y-values `[5, -1, 7]`
the sentinel folds compute `_min_y = _max_y = 7` (the pin at y = -1 resets
the running minimum, and the pin at y = 5, processed while the minimum is
back at the sentinel, overwrites it), so the pins at y = 5 and y = -1
satisfy the membership test of no bucket whatsoever — refuting the claim
that every free pin of every non-empty pool is assigned to exactly one of
the 32 buckets. -/
theorem C7_sentinel_counterexample :
    c7pool.length = 3 ∧
    readMinY c7pool = 7 ∧
    readMaxY c7pool = 7 ∧
    ((List.range 32).filter
      (fun i => decide (memBucket (mkIntervals c7pool) i c7a))) = [] ∧
    ((List.range 32).filter
      (fun i => decide (memBucket (mkIntervals c7pool) i c7b))) = [] ∧
    ((List.range 32).filter
      (fun i => decide (memBucket (mkIntervals c7pool) i c7c))) = [0] := by
  refine ⟨rfl, rfl, rfl, ?_, ?_, ?_⟩ <;> with_unfolding_all rfl

/-- Free pin at y = -1 that the fast builder silently drops. -/
def c3z : Pin := Pin.mk "z" 0 (-1)

/-- Pool for the C3 counterexample: the y = -1 pin followed by pins at
y = 0..32.  The sentinel fold computes `_min_y = 0` (the pin at y = -1 sets
the minimum back to the sentinel value, and the next pin overwrites it), so
all 32 buckets are non-empty yet the y = -1 pin belongs to none. -/
def c3pool : List Pin :=
  c3z :: (List.range 33).map (fun (j : ℕ) => Pin.mk "g" 0 (j : ℤ))

/-- C3 counterexample: the chip with drivers `ccPlus`/`ccMinus` and pool
`c3pool` satisfies the claim's stated fast-builder precondition (all 32
buckets receive at least one free pin; all pins are distinct), the fast
builder runs to completion, and yet the initially-free pin at y = -1
appears in no edge at all (`conn_in` and `conn_out` counts both 0) —
refuting the coverage claim as stated. -/
theorem C3_sentinel_counterexample :
    ((List.range 32).all
      (fun i => !(bucketPins (mkIntervals c3pool) c3pool i).isEmpty)) = true ∧
    (ccPlus ++ (ccMinus ++ c3pool)).Nodup ∧
    c3z ∈ c3pool ∧
    (find_paths_fast_version (mkChip ccPlus ccMinus c3pool)).map
      (fun r => (countIn r.1.graph c3z, countOut r.1.graph c3z)) =
      some (0, 0) := by
  refine ⟨?_, by decide, by decide, ?_⟩
  · with_unfolding_all rfl
  · with_unfolding_all rfl

end Datathon
